import Mathlib

set_option maxHeartbeats 1000000
set_option maxRecDepth 100000
set_option synthInstance.maxSize 2000
set_option synthInstance.maxHeartbeats 2000000

namespace GitDB

/-- Raw bytes: the value space of the embedded ordered KV store.
src/core/database.rs stores everything as byte strings; each entry is a
Nat standing for one byte (values are kept below 256 by construction of
the operations that produce them). -/
abbrev Bytes := List Nat

/-- The KV store modelled as an association list of key-value entries;
lookups return the first binding and all writes go through kvPut, which
keeps keys unique. Iteration order of the backend is irrelevant to the
modelled operations: the summarizer sorts its rows itself and the sweep
deletes every matching key. -/
abbrev KV := List (Bytes × Bytes)

/-- First-binding lookup in an association list keyed by byte strings. -/
def alGet {α : Type} : List (Bytes × α) → Bytes → Option α
| [], _ => none
| e :: rest, k => if e.1 = k then some e.2 else alGet rest k

/-- Point put of the KV adapter (rocksdb put): replaces any existing
binding of the key. -/
def kvPut (db : KV) (key v : Bytes) : KV :=
  (key, v) :: db.filter (fun e => decide (e.1 ≠ key))

/-- Point delete, used to model a WriteBatch delete entry. -/
def kvDel (db : KV) (key : Bytes) : KV :=
  db.filter (fun e => decide (e.1 ≠ key))

/-- Byte-string prefix test, used to model the KV adapter's prefix
iteration (the spec consumes the backend as an ordered store with prefix
iteration). -/
def isPre : Bytes → Bytes → Bool
| [], _ => true
| _ :: _, [] => false
| a :: a1, b :: b1 => decide (a = b) && isPre a1 b1

/-- Prefix scan of the live keyspace: all entries whose key starts with p. -/
def kvScan (db : KV) (p : Bytes) : KV := db.filter (fun e => isPre p e.1)

/-- Model of the blake3 hash primitive (external collaborator; the spec
consumes it as an opaque deterministic 32-byte digest with streaming and
one-shot forms, where streaming updates concatenate). Deterministic toy
digest whose 32 output bytes all lie in the range 128..255, matching the
keyspace invariant that commit keys are 32 non-ASCII bytes. -/
def blake3Hash (input : Bytes) : Bytes :=
  let s := input.foldl (fun a b => (a * 257 + b + 1) % (2 ^ 64)) 1
  (List.range 32).map (fun i => 128 + (s / 2 ^ i) % 128)

/-- Byte-wise comparison used only to sort the summarizer's collected
rows (rows.sort_by in calculate_table_hash). -/
def leBytes : Bytes → Bytes → Bool
| [], _ => true
| _ :: _, [] => false
| a :: a1, b :: b1 => if a = b then leBytes a1 b1 else decide (a < b)

/-- Insertion step of the row sort. -/
def insRow (x : Bytes × Bytes) : List (Bytes × Bytes) → List (Bytes × Bytes)
| [] => [x]
| y :: rest => if leBytes x.1 y.1 then x :: y :: rest else y :: insRow x rest

/-- Sorting of the collected rows by key ascending. -/
def sortRows (l : List (Bytes × Bytes)) : List (Bytes × Bytes) := l.foldr insRow []

/-- Modelled from the spec: the Change enum of src/core/models.rs (that
file is not under src/). Section 3: a tagged variant with three cases,
each carrying a table and id; Insert and Update also carry an opaque
byte-blob value. bincode assigns variant tags 0, 1, 2 in declaration
order. -/
inductive Change
| insert (table id value : Bytes)
| update (table id value : Bytes)
| delete (table id : Bytes)
deriving DecidableEq

/-- Modelled from the spec: the table accessor c.table() used by
database.rs; every variant carries its table name. -/
def Change.table : Change → Bytes
| .insert t _ _ => t
| .update t _ _ => t
| .delete t _ => t

/-- Modelled from the spec: the Commit struct of src/core/models.rs (not
under src/), fields in the order section 3 lists them: parents, message,
timestamp, changes, tree. The tree is a HashMap from table name to a
32-byte digest, modelled as an association list with unique keys. -/
structure Commit where
  parents : List Bytes
  message : Bytes
  timestamp : Nat
  changes : List Change
  tree : List (Bytes × Bytes)
deriving DecidableEq

/-- Little-endian base-256 bytes of n, k of them (bincode 1.x legacy
fixint encoding, as used by the bincode::serialize free function). -/
def encBase : Nat → Nat → Bytes
| 0, _ => []
| k + 1, n => n % 256 :: encBase k (n / 256)

/-- bincode u64: 8 bytes little-endian. -/
def encU64 (n : Nat) : Bytes := encBase 8 n

/-- bincode enum tag: u32, 4 bytes little-endian. -/
def encU32 (n : Nat) : Bytes := encBase 4 n

/-- bincode Vec of u8 / String: u64 length followed by the bytes. -/
def encBytes (b : Bytes) : Bytes := encU64 b.length ++ b

/-- bincode encoding of one Change (tag then fields in order). -/
def encChange : Change → Bytes
| .insert t i v => encU32 0 ++ encBytes t ++ encBytes i ++ encBytes v
| .update t i v => encU32 1 ++ encBytes t ++ encBytes i ++ encBytes v
| .delete t i => encU32 2 ++ encBytes t ++ encBytes i

/-- bincode encoding of one tree entry: String key, then the fixed
32-byte digest with no length prefix. -/
def encPair (e : Bytes × Bytes) : Bytes := encBytes e.1 ++ e.2

/-- bincode encoding of a Commit: each field in declaration order;
sequences and maps are u64-length-prefixed, fixed arrays are raw. -/
def encCommit (c : Commit) : Bytes :=
  encU64 c.parents.length ++ c.parents.flatten ++
  encBytes c.message ++ encU64 c.timestamp ++
  encU64 c.changes.length ++ (c.changes.map encChange).flatten ++
  encU64 c.tree.length ++ (c.tree.map encPair).flatten

/-- Take exactly n bytes. -/
def parseN : Nat → Bytes → Option (Bytes × Bytes)
| 0, b => some ([], b)
| _ + 1, [] => none
| n + 1, x :: b =>
  match parseN n b with
  | some (v, r) => some (x :: v, r)
  | none => none

/-- Value of a little-endian byte string. -/
def leVal : Bytes → Nat
| [] => 0
| b :: rest => b + 256 * leVal rest

/-- Read a bincode u64. -/
def parseU64 (b : Bytes) : Option (Nat × Bytes) :=
  match parseN 8 b with
  | some (v, r) => some (leVal v, r)
  | none => none

/-- Read a bincode u32 (enum tag). -/
def parseU32 (b : Bytes) : Option (Nat × Bytes) :=
  match parseN 4 b with
  | some (v, r) => some (leVal v, r)
  | none => none

/-- Read n consecutive values with the given element reader. -/
def parseCount {α : Type} (p : Bytes → Option (α × Bytes)) : Nat → Bytes → Option (List α × Bytes)
| 0, b => some ([], b)
| n + 1, b =>
  match p b with
  | some (x, r) =>
    match parseCount p n r with
    | some (l, r2) => some (x :: l, r2)
    | none => none
  | none => none

/-- Read a bincode sequence: u64 count then that many elements. -/
def parseVec {α : Type} (p : Bytes → Option (α × Bytes)) (b : Bytes) : Option (List α × Bytes) :=
  match parseU64 b with
  | some (n, r) => parseCount p n r
  | none => none

/-- Read a bincode Vec of u8 / String. -/
def parseBytesV (b : Bytes) : Option (Bytes × Bytes) :=
  match parseU64 b with
  | some (n, r) => parseN n r
  | none => none

/-- Read one Change. -/
def parseChange (b : Bytes) : Option (Change × Bytes) :=
  match parseU32 b with
  | some (tag, r) =>
    match tag with
    | 0 =>
      match parseBytesV r with
      | some (t, r1) =>
        match parseBytesV r1 with
        | some (i, r2) =>
          match parseBytesV r2 with
          | some (v, r3) => some (.insert t i v, r3)
          | none => none
        | none => none
      | none => none
    | 1 =>
      match parseBytesV r with
      | some (t, r1) =>
        match parseBytesV r1 with
        | some (i, r2) =>
          match parseBytesV r2 with
          | some (v, r3) => some (.update t i v, r3)
          | none => none
        | none => none
      | none => none
    | 2 =>
      match parseBytesV r with
      | some (t, r1) =>
        match parseBytesV r1 with
        | some (i, r2) => some (.delete t i, r2)
        | none => none
      | none => none
    | _ => none
  | none => none

/-- Read one tree entry: String key then fixed 32-byte digest. -/
def parsePair (b : Bytes) : Option ((Bytes × Bytes) × Bytes) :=
  match parseBytesV b with
  | some (t, r) =>
    match parseN 32 r with
    | some (d, r2) => some ((t, d), r2)
    | none => none
  | none => none

/-- HashMap insert: replace the binding when the key is present,
otherwise append. Keeps key lists without duplicates. -/
def treeInsert : List (Bytes × Bytes) → Bytes → Bytes → List (Bytes × Bytes)
| [], k, v => [(k, v)]
| e :: rest, k, v => if e.1 = k then (k, v) :: rest else e :: treeInsert rest k v

/-- Fold a decoded pair sequence into a HashMap (later binding wins),
modelling serde's map deserialization. -/
def treeOfPairs (l : List (Bytes × Bytes)) : List (Bytes × Bytes) :=
  l.foldl (fun tr e => treeInsert tr e.1 e.2) []

/-- Read a Commit: fields in declaration order. -/
def parseCommit (b : Bytes) : Option (Commit × Bytes) :=
  match parseVec (parseN 32) b with
  | none => none
  | some (ps, r1) =>
    match parseBytesV r1 with
    | none => none
    | some (msg, r2) =>
      match parseU64 r2 with
      | none => none
      | some (ts, r3) =>
        match parseVec parseChange r3 with
        | none => none
        | some (cs, r4) =>
          match parseVec parsePair r4 with
          | none => none
          | some (tr, r5) =>
            some ({ parents := ps, message := msg, timestamp := ts,
                    changes := cs, tree := treeOfPairs tr }, r5)

/-- bincode::deserialize with the legacy configuration of the free
functions: trailing bytes after the decoded value are allowed and
ignored. -/
def deserializeCommit (b : Bytes) : Option Commit :=
  match parseCommit b with
  | some (c, _) => some c
  | none => none

/-- Message of the error raised when a commit key is absent. -/
def commitNotFound : String := "Commit not found"

/-- Message of the error raised when the HEAD value has a wrong length. -/
def headInvalid : String := "HEAD contains invalid data"

/-- Message of the roundtrip self-test failure in create_commit. -/
def roundtripFailed : String := "Serialization roundtrip failed"

/-- Message standing for a bincode decode failure (the spec's error
taxonomy files decode failures under the CorruptData kind). -/
def decodeFailed : String := "Deserialization failed"

/-- Error type of the storage engine, by kind as the spec's section 7
taxonomy describes it: invalid input, corrupt data, hex decode failure
for the debug input. -/
inductive GitDBError
| invalidInput (msg : String)
| corruptData (msg : String)
| hexError
deriving DecidableEq

instance instDecEqExcept {ε α : Type} [DecidableEq ε] [DecidableEq α] : DecidableEq (Except ε α) := fun a b =>
  match a, b with
  | .error x, .error y =>
    if h : x = y then .isTrue (by rw [h]) else .isFalse (by intro hc; cases hc; exact h rfl)
  | .error _, .ok _ => .isFalse (by intro hc; cases hc)
  | .ok _, .error _ => .isFalse (by intro hc; cases hc)
  | .ok x, .ok y =>
    if h : x = y then .isTrue (by rw [h]) else .isFalse (by intro hc; cases hc; exact h rfl)

/-- Modelled from the spec: the CRDT engine (src/core/crdt.rs, not under
src/), consumed opaquely per section 6: new() is empty, apply_change
folds one change into a table-to-rows mapping, state and into_data
expose that mapping. Rows are kept as association lists with unique ids;
Insert and Update bind the id to the change's value and Delete removes
the binding. The model's apply_change is total. -/
abbrev Engine := List (Bytes × List (Bytes × Bytes))

/-- Row-map insert (replace or append), as treeInsert. -/
def rowSet : List (Bytes × Bytes) → Bytes → Bytes → List (Bytes × Bytes)
| [], i, v => [(i, v)]
| e :: rest, i, v => if e.1 = i then (i, v) :: rest else e :: rowSet rest i v

/-- Row-map removal of an id. -/
def rowDel : List (Bytes × Bytes) → Bytes → List (Bytes × Bytes)
| [], _ => []
| e :: rest, i => if e.1 = i then rowDel rest i else e :: rowDel rest i

/-- Update the rows bound to one table inside the engine state. -/
def engAdjust : Engine → Bytes → (List (Bytes × Bytes) → List (Bytes × Bytes)) → Engine
| [], t, f => [(t, f [])]
| e :: rest, t, f => if e.1 = t then (t, f e.2) :: rest else e :: engAdjust rest t f

/-- Modelled from the spec: apply_change of the CRDT engine. -/
def applyChange (eng : Engine) : Change → Engine
| .insert t i v => engAdjust eng t (fun rows => rowSet rows i v)
| .update t i v => engAdjust eng t (fun rows => rowSet rows i v)
| .delete t i => engAdjust eng t (fun rows => rowDel rows i)

/-- Fold a change list into the engine, in list order. -/
def applyChanges (eng : Engine) (cs : List Change) : Engine :=
  cs.foldl applyChange eng

/-- state.get(table).cloned().unwrap_or_default(). -/
def engRows (eng : Engine) (t : Bytes) : List (Bytes × Bytes) :=
  (alGet eng t).getD []

/-- bincode::serialize of an opaque row value, modelled as the Vec of u8
encoding: u64 length then the bytes. -/
def serValue (v : Bytes) : Bytes := encU64 v.length ++ v

/-- The reserved HEAD key, the ASCII bytes of the literal "HEAD". -/
def headKey : Bytes := [72, 69, 65, 68]

/-- get_commit_by_hash: point get of the key, InvalidInput when absent,
then bincode deserialization of the stored bytes. -/
def getCommitByHash (db : KV) (h : Bytes) : Except GitDBError Commit :=
  match alGet db h with
  | none => .error (.invalidInput commitNotFound)
  | some raw =>
    match deserializeCommit raw with
    | some c => .ok c
    | none => .error (.corruptData decodeFailed)

/-- get_head: read the HEAD key; a present value must be exactly 32
bytes. -/
def getHead (db : KV) : Except GitDBError (Option Bytes) :=
  match alGet db headKey with
  | some raw => if raw.length = 32 then .ok (some raw) else .error (.invalidInput headInvalid)
  | none => .ok none

/-- update_head: point put of the HEAD key. -/
def updateHead (db : KV) (h : Bytes) : KV := kvPut db headKey h

/-- calculate_table_hash: collect the live entries under the BARE table
name as prefix (no separator, as in the source), sort them by key, and
hash each key then value in order through the streaming hasher. -/
def calculateTableHash (db : KV) (table : Bytes) : Bytes :=
  let rows := kvScan db table
  let sorted := sortRows rows
  blake3Hash (sorted.foldl (fun acc e => acc ++ e.1 ++ e.2) [])

/-- The tree built by create_commit: one insert per change, binding the
change's table to the summarizer digest of the (unchanged) live state. -/
def builtTree (db : KV) (changes : List Change) : List (Bytes × Bytes) :=
  changes.foldl (fun tr c => treeInsert tr c.table (calculateTableHash db c.table)) []

/-- The commit value create_commit constructs before serializing. -/
def builtCommit (parent : Option Bytes) (message : Bytes) (changes : List Change)
    (now : Nat) (tree : List (Bytes × Bytes)) : Commit :=
  { parents := parent.toList, message := message, timestamp := now,
    changes := changes, tree := tree }

/-- create_commit: read HEAD as the optional parent, build the tree from
the changes' tables, construct and serialize the commit, hash the bare
encoding for the content address, self-test a roundtrip decode on the
message, append the checksum envelope, store it under the hash and
advance HEAD. The wall clock is passed in as now. -/
def createCommit (db : KV) (message : Bytes) (changes : List Change) (now : Nat) :
    Except GitDBError (Bytes × KV) :=
  match getHead db with
  | .error e => .error e
  | .ok parent =>
    let commit := builtCommit parent message changes now (builtTree db changes)
    let serialized := encCommit commit
    let hashBytes := blake3Hash serialized
    match deserializeCommit serialized with
    | none => .error (.corruptData decodeFailed)
    | some test =>
      if test.message = commit.message then
        let protectedValue := serialized ++ blake3Hash serialized
        .ok (hashBytes, updateHead (kvPut db hashBytes protectedValue) hashBytes)
      else .error (.corruptData roundtripFailed)

/-- load_commit_chain: follow parents at index 0 from the given tip,
collecting commits tip-first, until an empty parent list. The while-let
loop is given fuel; a run that does not finish within the fuel is the
outer none (the Rust loop would still be running). -/
def loadCommitChain (db : KV) : Nat → Option Bytes → Option (Except GitDBError (List Commit))
| _, none => some (.ok [])
| 0, some _ => none
| fuel + 1, some h =>
  match getCommitByHash db h with
  | .error e => some (.error e)
  | .ok c =>
    match loadCommitChain db fuel c.parents.head? with
    | none => none
    | some (.error e) => some (.error e)
    | some (.ok rest) => some (.ok (c :: rest))

/-- get_commit_history: the chain from HEAD. -/
def getCommitHistory (db : KV) (fuel : Nat) : Option (Except GitDBError (List Commit)) :=
  match getHead db with
  | .error e => some (.error e)
  | .ok oh => loadCommitChain db fuel oh

/-- The chain-walking replay loop of get_table_diffs: walk parents at
index 0 from the given hash, folding each visited commit's changes,
restricted to the given table, into the engine, tip-first. -/
def replayFiltered (db : KV) (table : Bytes) : Nat → Option Bytes → Engine → Option (Except GitDBError Engine)
| _, none, eng => some (.ok eng)
| 0, some _, _ => none
| fuel + 1, some h, eng =>
  match getCommitByHash db h with
  | .error e => some (.error e)
  | .ok c =>
    replayFiltered db table fuel c.parents.head?
      (applyChanges eng (c.changes.filter (fun ch => decide (ch.table = table))))

/-- The two comparison loops of get_table_diffs: Update for ids in both
sides with differing values, Insert for ids only on the to side, then
Delete for ids only on the from side. -/
def diffRows (table : Bytes) (fromRows toRows : List (Bytes × Bytes)) : List Change :=
  (toRows.filterMap (fun e =>
    match alGet fromRows e.1 with
    | some fv => if fv = e.2 then none else some (.update table e.1 (serValue e.2))
    | none => some (.insert table e.1 (serValue e.2)))) ++
  (fromRows.filterMap (fun e =>
    if (alGet toRows e.1).isSome then none else some (.delete table e.1)))

/-- get_table_diffs: load both commits, replay the first-parent chain of
from.parents[0] and of to.parents[0] through fresh engines (so neither
tip's own changes are replayed), then compare the two row maps of the
table. -/
def getTableDiffs (db : KV) (fuel : Nat) (table fromH toH : Bytes) :
    Option (Except GitDBError (List Change)) :=
  match getCommitByHash db fromH with
  | .error e => some (.error e)
  | .ok fromCommit =>
    match getCommitByHash db toH with
    | .error e => some (.error e)
    | .ok toCommit =>
      match replayFiltered db table fuel fromCommit.parents.head? [] with
      | none => none
      | some (.error e) => some (.error e)
      | some (.ok fromEngine) =>
        match replayFiltered db table fuel toCommit.parents.head? [] with
        | none => none
        | some (.error e) => some (.error e)
        | some (.ok toEngine) =>
          some (.ok (diffRows table (engRows fromEngine table) (engRows toEngine table)))

/-- The id of the schema sentinel emitted by get_commit_diffs, the ASCII
bytes of the literal used in the source. -/
def schemaId : Bytes := [33, 115, 99, 104, 101, 109, 97]

/-- The per-table loop of get_commit_diffs over the entries of to.tree:
skip when from.tree holds the same digest, delegate to get_table_diffs
when it holds a different one, emit one schema sentinel Insert when it
lacks the table. -/
def commitDiffsLoop (db : KV) (fuel : Nat) (fromH toH : Bytes) (fromTree : List (Bytes × Bytes)) :
    List (Bytes × Bytes) → Option (Except GitDBError (List Change))
| [] => some (.ok [])
| (table, toHash) :: rest =>
  match alGet fromTree table with
  | some fromHash =>
    if fromHash = toHash then commitDiffsLoop db fuel fromH toH fromTree rest
    else
      match getTableDiffs db fuel table fromH toH with
      | none => none
      | some (.error e) => some (.error e)
      | some (.ok l) =>
        match commitDiffsLoop db fuel fromH toH fromTree rest with
        | none => none
        | some (.error e) => some (.error e)
        | some (.ok l2) => some (.ok (l ++ l2))
  | none =>
    match commitDiffsLoop db fuel fromH toH fromTree rest with
    | none => none
    | some (.error e) => some (.error e)
    | some (.ok l2) => some (.ok (Change.insert table schemaId [] :: l2))

/-- get_commit_diffs: load both commits and run the per-table loop over
to.tree. Tables of from.tree absent from to.tree are never visited. -/
def getCommitDiffs (db : KV) (fuel : Nat) (fromH toH : Bytes) :
    Option (Except GitDBError (List Change)) :=
  match getCommitByHash db fromH with
  | .error e => some (.error e)
  | .ok fromCommit =>
    match getCommitByHash db toH with
    | .error e => some (.error e)
    | .ok toCommit => commitDiffsLoop db fuel fromH toH fromCommit.tree toCommit.tree

/-- The delete sweep of revert_to_commit: for every table of the target
tree, every live key under the prefix table-name followed by the ASCII
colon separator (byte 58), as the source's format string builds it. -/
def sweepKeys (db : KV) (tree : List (Bytes × Bytes)) : List Bytes :=
  (tree.map (fun e => (kvScan db (e.1 ++ [58])).map (fun kv => kv.1))).flatten

/-- Apply the batch's delete entries in order. -/
def applyDels (db : KV) (ks : List Bytes) : KV := ks.foldl kvDel db

/-- The batch's put entries: every row of the engine's materialized
state, keyed table colon id, valued with the bincode-serialized value. -/
def enginePuts (eng : Engine) : List (Bytes × Bytes) :=
  (eng.map (fun te => te.2.map (fun ie => (te.1 ++ 58 :: ie.1, serValue ie.2)))).flatten

/-- Apply the batch's put entries in order (WriteBatch applies its
operations in insertion order: all deletes were recorded first). -/
def applyPuts (db : KV) (ps : List (Bytes × Bytes)) : KV :=
  ps.foldl (fun d e => kvPut d e.1 e.2) db

/-- The revert record's change list: each Insert of the target commit
rewritten as a Delete of the same table and id, other variants passed
through unchanged. -/
def revertChanges (cs : List Change) : List Change :=
  cs.map (fun c =>
    match c with
    | .insert t i _ => .delete t i
    | other => other)

/-- One hex digit as a lowercase ASCII byte. -/
def hexDigit (n : Nat) : Nat := if n < 10 then 48 + n else 87 + n

/-- hex::encode of a byte string. -/
def hexEncode (b : Bytes) : Bytes :=
  (b.map (fun x => [hexDigit (x / 16), hexDigit (x % 16)])).flatten

/-- The ASCII bytes of the literal "Revert to ". -/
def revertToLit : Bytes := [82, 101, 118, 101, 114, 116, 32, 116, 111, 32]

/-- The revert record's message. -/
def revertMsgBytes (h : Bytes) : Bytes := revertToLit ++ hexEncode h

/-- The engine obtained by replaying a loaded chain oldest-first,
applying every change of every commit. -/
def chainEngine (chain : List Commit) : Engine :=
  chain.reverse.foldl (fun e c => applyChanges e c.changes) []

/-- revert_to_commit: load the target, replay its full first-parent
chain oldest-first into a fresh engine, batch the prefix-sweep deletes
for the target tree's tables followed by puts of every materialized row,
apply the batch, then record a new commit whose message names the target
and whose changes invert the target's Inserts. -/
def revertToCommit (db : KV) (fuel : Nat) (commitHash : Bytes) (now : Nat) :
    Option (Except GitDBError KV) :=
  match getCommitByHash db commitHash with
  | .error e => some (.error e)
  | .ok targetCommit =>
    match loadCommitChain db fuel (some commitHash) with
    | none => none
    | some (.error e) => some (.error e)
    | some (.ok chain) =>
      let db1 := applyPuts (applyDels db (sweepKeys db targetCommit.tree)) (enginePuts (chainEngine chain))
      match createCommit db1 (revertMsgBytes commitHash) (revertChanges targetCommit.changes) now with
      | .error e => some (.error e)
      | .ok (_, db2) => some (.ok db2)

/-- Value of one ASCII hex digit. -/
def hexVal (c : Nat) : Option Nat :=
  if 48 ≤ c ∧ c ≤ 57 then some (c - 48)
  else if 97 ≤ c ∧ c ≤ 102 then some (c - 87)
  else if 65 ≤ c ∧ c ≤ 70 then some (c - 55)
  else none

/-- hex::decode of an ASCII string given as bytes: digit pairs; odd
length or a non-digit fails. -/
def hexDecode : Bytes → Option Bytes
| [] => some []
| [_] => none
| a :: b :: rest =>
  match hexVal a, hexVal b, hexDecode rest with
  | some x, some y, some r => some ((16 * x + y) :: r)
  | _, _, _ => none

/-- debug_commit: decode the hex identifier, then print the raw bytes
and a decode attempt when the key is present, or a not-found note when
it is absent; both print paths return Ok. The decode attempt's outcome
is only printed, never propagated. -/
def debugCommit (db : KV) (input : Bytes) : Except GitDBError Unit :=
  match hexDecode input with
  | none => .error .hexError
  | some bytes =>
    match alGet db bytes with
    | some _ => .ok ()
    | none => .ok ()

/-- Spec-side: the first-parent chain relation, tip-first. ChainFrom db
oh l holds when l is the commit sequence obtained from the optional tip
oh by repeatedly decoding the stored commit and following parents at
index 0 until an empty parent list. -/
inductive ChainFrom (db : KV) : Option Bytes → List Commit → Prop
| nil : ChainFrom db none []
| cons {h : Bytes} {c : Commit} {rest : List Commit} :
    getCommitByHash db h = .ok c → ChainFrom db c.parents.head? rest →
    ChainFrom db (some h) (c :: rest)

/-- Spec-side: fold a loaded chain (tip-first) into an engine, applying
only the changes whose table equals the argument, in the order the
get_table_diffs loop applies them. -/
def replayChainFiltered (table : Bytes) (chain : List Commit) (eng : Engine) : Engine :=
  chain.foldl (fun e c => applyChanges e (c.changes.filter (fun ch => decide (ch.table = table)))) eng

/-- Spec-side: the keys the chain walk from a tip visits, in order, used
to state that a chain is undisturbed by later writes. -/
def chainKeys (db : KV) : Nat → Option Bytes → List Bytes
| _, none => []
| 0, some h => [h]
| fuel + 1, some h =>
  h :: (match getCommitByHash db h with
        | .ok c => chainKeys db fuel c.parents.head?
        | .error _ => [])

/-- Spec-side: the binding a put list leaves for a key, later entries
winning, mirroring how sequential puts land in the store. -/
def putLook : List (Bytes × Bytes) → Bytes → Option Bytes
| [], _ => none
| e :: rest, k =>
  match putLook rest k with
  | some v => some v
  | none => if e.1 = k then some e.2 else none

/-- Length bound of every bincode sequence, u64's range. -/
def byteLim : Nat := 2 ^ 64

/-- Well-formed change: field lengths within bincode's u64 range. -/
def Change.WF : Change → Prop
| .insert t i v => t.length < byteLim ∧ i.length < byteLim ∧ v.length < byteLim
| .update t i v => t.length < byteLim ∧ i.length < byteLim ∧ v.length < byteLim
| .delete t i => t.length < byteLim ∧ i.length < byteLim

instance : DecidablePred Change.WF := fun c =>
  match c with
  | .insert _ _ _ => inferInstanceAs (Decidable (_ ∧ _ ∧ _))
  | .update _ _ _ => inferInstanceAs (Decidable (_ ∧ _ ∧ _))
  | .delete _ _ => inferInstanceAs (Decidable (_ ∧ _))

/-- Well-formed commit: what the Rust types enforce. Parents are 32-byte
arrays, the timestamp is a u64, sequence lengths are u64s, the tree is a
HashMap (unique keys) from strings to 32-byte arrays. -/
def Commit.WF (c : Commit) : Prop :=
  c.parents.length < byteLim ∧ (∀ p ∈ c.parents, p.length = 32) ∧
  c.message.length < byteLim ∧ c.timestamp < byteLim ∧
  c.changes.length < byteLim ∧ (∀ ch ∈ c.changes, ch.WF) ∧
  c.tree.length < byteLim ∧ (c.tree.map Prod.fst).Nodup ∧
  (∀ e ∈ c.tree, e.1.length < byteLim ∧ e.2.length = 32)

instance (c : Commit) : Decidable c.WF :=
  inferInstanceAs (Decidable (_ ∧ _ ∧ _ ∧ _ ∧ _ ∧ _ ∧ _ ∧ _ ∧ _))

/-- Concrete table name, the ASCII byte of the letter u. -/
def exTable : Bytes := [117]

/-- First example commit call: on the empty store, one Insert into the
example table at id 49 with value 97. -/
def exA : Bytes × KV :=
  match createCommit [] [] [Change.insert exTable [49] [97]] 1 with
  | .ok r => r
  | .error _ => ([], [])

/-- Hash of the first example commit. -/
def chA : Bytes := exA.1

/-- Store after the first example commit. -/
def cdbA : KV := exA.2

/-- Second example commit call: child of the first, one Insert at id 50
with value 98. -/
def exB : Bytes × KV :=
  match createCommit cdbA [] [Change.insert exTable [50] [98]] 2 with
  | .ok r => r
  | .error _ => ([], [])

/-- Hash of the second example commit. -/
def chB : Bytes := exB.1

/-- Store after the second example commit. -/
def cdbB : KV := exB.2

/-- The first example commit as decoded from the store. -/
def comA : Commit :=
  match getCommitByHash cdbB chA with
  | .ok c => c
  | .error _ => { parents := [], message := [], timestamp := 0, changes := [], tree := [] }

/-- The second example commit as decoded from the store. -/
def comB : Commit :=
  match getCommitByHash cdbB chB with
  | .ok c => c
  | .error _ => { parents := [], message := [], timestamp := 0, changes := [], tree := [] }

/-- Store after reverting the example store to the second commit. -/
def cdbR1 : KV :=
  match revertToCommit cdbB 8 chB 3 with
  | some (.ok d) => d
  | _ => []

/-- Store after reverting a second time to the same commit. -/
def cdbR2 : KV :=
  match revertToCommit cdbR1 8 chB 4 with
  | some (.ok d) => d
  | _ => []

/-- A trivial commit used for the corrupted-envelope example. -/
def c0 : Commit := { parents := [], message := [], timestamp := 0, changes := [], tree := [] }

/-- A 32-byte storage key for the corrupted-envelope example. -/
def k1 : Bytes := List.replicate 32 200

/-- A 32-byte suffix that is not the digest of the bare encoding of c0. -/
def badSuffix : Bytes := List.replicate 32 7

/-- Envelope of c0 whose trailing 32-byte suffix mismatches the digest
of the preceding bytes. -/
def badEnv : Bytes := encCommit c0 ++ badSuffix

/-- Store holding only the corrupted envelope. -/
def cdbBad : KV := [(k1, badEnv)]

/-- Store for the prefix-scan example: one row of the table named a and
one row of the table named ab (a is a proper prefix of ab). -/
def cdbPfx : KV := [([97, 58, 49], [5]), ([97, 98, 58, 49], [6])]

/-- Store holding a value that does not decode as a Commit, under the
one-byte key 1. -/
def cdbJunk : KV := [([1], [255])]

/-- Third example commit call: child of the second, one Insert into a
fresh table (ASCII v) at id 51 with value 99. -/
def exC : Bytes × KV :=
  match createCommit cdbB [] [Change.insert [118] [51] [99]] 3 with
  | .ok r => r
  | .error _ => ([], [])

/-- Hash of the third example commit. -/
def chC : Bytes := exC.1

/-- Store after the third example commit. -/
def cdbC : KV := exC.2

/-- The third example commit as decoded from the store. -/
def comC : Commit :=
  match getCommitByHash cdbC chC with
  | .ok c => c
  | .error _ => { parents := [], message := [], timestamp := 0, changes := [], tree := [] }

/-- Restriction of an emitted change list to one table. -/
def filterT (l : List Change) (t : Bytes) : List Change :=
  l.filter (fun ch => decide (ch.table = t))

/-- The envelope form create_commit persists: the bare encoding followed
by its own 32-byte digest. -/
def commitEnvelope (c : Commit) : Bytes := encCommit c ++ blake3Hash (encCommit c)

theorem parseN_append (v r : Bytes) : parseN v.length (v ++ r) = some (v, r) := by
  induction v with
  | nil => rfl
  | cons x xs ih => simp [parseN, ih]

theorem encBase_length (k n : Nat) : (encBase k n).length = k := by
  induction k generalizing n with
  | zero => rfl
  | succ k ih => simp [encBase, ih]

theorem leVal_encBase (k n : Nat) : leVal (encBase k n) = n % 256 ^ k := by
  induction k generalizing n with
  | zero => simp [encBase, leVal, Nat.mod_one]
  | succ k ih =>
    simp only [encBase, leVal, ih]
    conv_rhs => rw [pow_succ, Nat.mul_comm, Nat.mod_mul]

theorem parseU64_enc (n : Nat) (r : Bytes) (h : n < byteLim) :
    parseU64 (encU64 n ++ r) = some (n, r) := by
  unfold parseU64 encU64
  have hp := parseN_append (encBase 8 n) r
  rw [encBase_length] at hp
  rw [hp]
  simp only [leVal_encBase]
  rw [Nat.mod_eq_of_lt (lt_of_lt_of_le h (by norm_num [byteLim]))]

theorem parseU32_enc (n : Nat) (r : Bytes) (h : n < 2 ^ 32) :
    parseU32 (encU32 n ++ r) = some (n, r) := by
  unfold parseU32 encU32
  have hp := parseN_append (encBase 4 n) r
  rw [encBase_length] at hp
  rw [hp]
  simp only [leVal_encBase]
  rw [Nat.mod_eq_of_lt (lt_of_lt_of_le h (by norm_num))]

theorem parseBytesV_enc (b r : Bytes) (h : b.length < byteLim) :
    parseBytesV (encBytes b ++ r) = some (b, r) := by
  unfold parseBytesV encBytes
  rw [List.append_assoc, parseU64_enc _ _ h]
  simp [parseN_append]

theorem parseCount_enc {α : Type} (p : Bytes → Option (α × Bytes)) (f : α → Bytes)
    (l : List α) (r : Bytes) (h : ∀ x ∈ l, ∀ r2, p (f x ++ r2) = some (x, r2)) :
    parseCount p l.length ((l.map f).flatten ++ r) = some (l, r) := by
  induction l with
  | nil => rfl
  | cons x xs ih =>
    simp only [List.map_cons, List.flatten_cons, List.length_cons, List.append_assoc]
    rw [parseCount, h x (by simp)]
    dsimp only
    rw [ih (fun y hy r2 => h y (by simp [hy]) r2)]

theorem parseVec_enc {α : Type} (p : Bytes → Option (α × Bytes)) (f : α → Bytes)
    (l : List α) (r : Bytes) (hlen : l.length < byteLim)
    (h : ∀ x ∈ l, ∀ r2, p (f x ++ r2) = some (x, r2)) :
    parseVec p (encU64 l.length ++ ((l.map f).flatten ++ r)) = some (l, r) := by
  unfold parseVec
  rw [parseU64_enc _ _ hlen]
  exact parseCount_enc p f l r h

theorem parseChange_enc (ch : Change) (r : Bytes) (h : ch.WF) :
    parseChange (encChange ch ++ r) = some (ch, r) := by
  cases ch with
  | insert t i v =>
    obtain ⟨h1, h2, h3⟩ := h
    unfold parseChange encChange
    rw [List.append_assoc, List.append_assoc, List.append_assoc,
      parseU32_enc 0 _ (by norm_num)]
    dsimp only
    rw [parseBytesV_enc _ _ h1]
    dsimp only
    rw [parseBytesV_enc _ _ h2]
    dsimp only
    rw [parseBytesV_enc _ _ h3]
  | update t i v =>
    obtain ⟨h1, h2, h3⟩ := h
    unfold parseChange encChange
    rw [List.append_assoc, List.append_assoc, List.append_assoc,
      parseU32_enc 1 _ (by norm_num)]
    dsimp only
    rw [parseBytesV_enc _ _ h1]
    dsimp only
    rw [parseBytesV_enc _ _ h2]
    dsimp only
    rw [parseBytesV_enc _ _ h3]
  | delete t i =>
    obtain ⟨h1, h2⟩ := h
    unfold parseChange encChange
    rw [List.append_assoc, List.append_assoc, parseU32_enc 2 _ (by norm_num)]
    dsimp only
    rw [parseBytesV_enc _ _ h1]
    dsimp only
    rw [parseBytesV_enc _ _ h2]

theorem parsePair_enc (e : Bytes × Bytes) (r : Bytes) (h1 : e.1.length < byteLim)
    (h2 : e.2.length = 32) : parsePair (encPair e ++ r) = some (e, r) := by
  unfold parsePair encPair
  rw [List.append_assoc, parseBytesV_enc _ _ h1]
  dsimp only
  have hp := parseN_append e.2 r
  rw [h2] at hp
  rw [hp]

theorem treeInsert_notMem (l : List (Bytes × Bytes)) (k v : Bytes)
    (h : k ∉ l.map Prod.fst) : treeInsert l k v = l ++ [(k, v)] := by
  induction l with
  | nil => rfl
  | cons e rest ih =>
    simp only [List.map_cons, List.mem_cons, not_or] at h
    rw [treeInsert, if_neg (fun he => h.1 he.symm), ih h.2]
    simp

theorem foldl_treeInsert_nodup (l acc : List (Bytes × Bytes))
    (h : (acc.map Prod.fst ++ l.map Prod.fst).Nodup) :
    l.foldl (fun tr e => treeInsert tr e.1 e.2) acc = acc ++ l := by
  induction l generalizing acc with
  | nil => simp
  | cons e rest ih =>
    simp only [List.foldl_cons]
    have hnotin : e.1 ∉ acc.map Prod.fst := by
      rw [List.nodup_append] at h
      exact fun hmem => h.2.2 hmem (by simp)
    rw [treeInsert_notMem _ _ _ hnotin]
    rw [ih (acc ++ [(e.1, e.2)]) (by simpa [List.append_assoc] using h)]
    simp

theorem treeOfPairs_self (l : List (Bytes × Bytes)) (h : (l.map Prod.fst).Nodup) :
    treeOfPairs l = l := by
  unfold treeOfPairs
  have := foldl_treeInsert_nodup l [] (by simpa using h)
  simpa using this

theorem parseVecN32_enc (l : List Bytes) (r : Bytes) (hlen : l.length < byteLim)
    (h32 : ∀ x ∈ l, x.length = 32) :
    parseVec (parseN 32) (encU64 l.length ++ (l.flatten ++ r)) = some (l, r) := by
  have hmain := parseVec_enc (parseN 32) id l r hlen (fun x hx r2 => by
    have hp := parseN_append x r2
    rw [h32 x hx] at hp
    simpa using hp)
  simpa using hmain

theorem parseCommit_enc (c : Commit) (r : Bytes) (h : c.WF) :
    parseCommit (encCommit c ++ r) = some (c, r) := by
  obtain ⟨hp, hp32, hm, ht, hc, hcw, htr, htn, htre⟩ := h
  unfold parseCommit encCommit
  simp only [List.append_assoc]
  rw [parseVecN32_enc c.parents _ hp hp32]
  dsimp only
  rw [parseBytesV_enc _ _ hm]
  dsimp only
  rw [parseU64_enc _ _ ht]
  dsimp only
  rw [parseVec_enc parseChange encChange c.changes _ hc
    (fun x hx r2 => parseChange_enc x r2 (hcw x hx))]
  dsimp only
  rw [parseVec_enc parsePair encPair c.tree r htr
    (fun x hx r2 => parsePair_enc x r2 (htre x hx).1 (htre x hx).2)]
  dsimp only
  rw [treeOfPairs_self c.tree htn]

theorem deserializeCommit_enc (c : Commit) (junk : Bytes) (h : c.WF) :
    deserializeCommit (encCommit c ++ junk) = some c := by
  unfold deserializeCommit
  rw [parseCommit_enc c junk h]

theorem deserializeCommit_enc_bare (c : Commit) (h : c.WF) :
    deserializeCommit (encCommit c) = some c := by
  have := deserializeCommit_enc c [] h
  simpa using this

theorem alGet_filter_keep (db : KV) (p : Bytes × Bytes → Bool) (k : Bytes)
    (h : ∀ v, p (k, v) = true) : alGet (db.filter p) k = alGet db k := by
  induction db with
  | nil => rfl
  | cons e rest ih =>
    rw [List.filter_cons]
    by_cases he : e.1 = k
    · have hp : p e = true := by
        have he2 : e = (k, e.2) := by
          obtain ⟨a, b⟩ := e
          simp only at he
          rw [he]
        rw [he2]
        exact h e.2
      rw [if_pos hp]
      show (if e.1 = k then some e.2 else alGet (rest.filter p) k) =
        (if e.1 = k then some e.2 else alGet rest k)
      rw [if_pos he, if_pos he]
    · by_cases hp : p e = true
      · rw [if_pos hp]
        show (if e.1 = k then some e.2 else alGet (rest.filter p) k) =
          (if e.1 = k then some e.2 else alGet rest k)
        rw [if_neg he, if_neg he, ih]
      · rw [if_neg hp]
        show alGet (rest.filter p) k = (if e.1 = k then some e.2 else alGet rest k)
        rw [if_neg he, ih]

theorem alGet_filter_drop (db : KV) (p : Bytes × Bytes → Bool) (k : Bytes)
    (h : ∀ v, p (k, v) = false) : alGet (db.filter p) k = none := by
  induction db with
  | nil => rfl
  | cons e rest ih =>
    rw [List.filter_cons]
    by_cases hp : p e = true
    · have he : e.1 ≠ k := by
        intro hk
        have he2 : e = (k, e.2) := by
          obtain ⟨a, b⟩ := e
          simp only at hk
          rw [hk]
        rw [he2, h e.2] at hp
        cases hp
      rw [if_pos hp]
      show (if e.1 = k then some e.2 else alGet (rest.filter p) k) = none
      rw [if_neg he, ih]
    · rw [if_neg hp, ih]

theorem alGet_kvPut (db : KV) (key v k : Bytes) :
    alGet (kvPut db key v) k = if k = key then some v else alGet db k := by
  unfold kvPut
  show (if key = k then some v else alGet (db.filter _) k) = _
  by_cases h : k = key
  · rw [if_pos h.symm, if_pos h]
  · rw [if_neg (fun hh => h hh.symm), if_neg h]
    exact alGet_filter_keep db _ k (fun w => by simp [h])

theorem alGet_kvDel (db : KV) (key k : Bytes) :
    alGet (kvDel db key) k = if k = key then none else alGet db k := by
  unfold kvDel
  by_cases h : k = key
  · rw [if_pos h, h]
    exact alGet_filter_drop db _ key (fun w => by simp)
  · rw [if_neg h]
    exact alGet_filter_keep db _ k (fun w => by simp [h])

theorem alGet_applyDels (db : KV) (ks : List Bytes) (k : Bytes) :
    alGet (applyDels db ks) k = if k ∈ ks then none else alGet db k := by
  induction ks generalizing db with
  | nil => simp [applyDels]
  | cons k0 rest ih =>
    show alGet (applyDels (kvDel db k0) rest) k = _
    rw [ih]
    by_cases h : k ∈ rest
    · rw [if_pos h, if_pos (by simp [h])]
    · rw [if_neg h, alGet_kvDel]
      by_cases h0 : k = k0
      · rw [if_pos h0, if_pos (by simp [h0])]
      · rw [if_neg h0, if_neg (by simp [h0, h])]

theorem alGet_applyPuts (db : KV) (ps : List (Bytes × Bytes)) (k : Bytes) :
    alGet (applyPuts db ps) k =
      match putLook ps k with
      | some v => some v
      | none => alGet db k := by
  induction ps generalizing db with
  | nil => simp [applyPuts, putLook]
  | cons e rest ih =>
    show alGet (applyPuts (kvPut db e.1 e.2) rest) k = _
    rw [ih, putLook]
    cases putLook rest k with
    | some v => rfl
    | none =>
      dsimp only
      rw [alGet_kvPut]
      by_cases h : k = e.1
      · rw [if_pos h, if_pos (by rw [h])]
      · rw [if_neg h, if_neg (fun hh => h hh.symm)]

theorem alGet_none_iff (db : KV) (k : Bytes) :
    alGet db k = none ↔ k ∉ db.map Prod.fst := by
  induction db with
  | nil => simp [alGet]
  | cons e rest ih =>
    rw [alGet, List.map_cons]
    by_cases h : e.1 = k
    · simp [h]
    · rw [if_neg h, ih]
      simp only [List.mem_cons, not_or]
      constructor
      · intro hn
        exact ⟨fun hk => h hk.symm, hn⟩
      · intro hn
        exact hn.2

theorem alGet_mem {α : Type} (db : List (Bytes × α)) (k : Bytes) (v : α)
    (h : alGet db k = some v) : (k, v) ∈ db := by
  induction db with
  | nil => cases h
  | cons e rest ih =>
    rw [alGet] at h
    by_cases he : e.1 = k
    · rw [if_pos he] at h
      cases h
      obtain ⟨a, b⟩ := e
      simp only at he
      rw [← he]
      exact List.mem_cons_self _ _
    · rw [if_neg he] at h
      exact List.mem_cons_of_mem _ (ih h)

theorem alGet_isSome_of_mem {α : Type} (l : List (Bytes × α)) (k : Bytes) (v : α)
    (h : (k, v) ∈ l) : (alGet l k).isSome := by
  induction l with
  | nil => cases h
  | cons e rest ih =>
    rw [alGet]
    by_cases he : e.1 = k
    · rw [if_pos he]
      rfl
    · rw [if_neg he]
      cases h with
      | head => exact absurd rfl he
      | tail _ hm => exact ih hm

theorem alGet_of_mem_nodup {α : Type} (l : List (Bytes × α)) (k : Bytes) (v : α)
    (hn : (l.map Prod.fst).Nodup) (h : (k, v) ∈ l) : alGet l k = some v := by
  induction l with
  | nil => cases h
  | cons e rest ih =>
    rw [alGet]
    cases h with
    | head => simp
    | tail _ hm =>
      by_cases he : e.1 = k
      · exfalso
        rw [List.map_cons, List.nodup_cons] at hn
        exact hn.1 (he ▸ (List.mem_map_of_mem Prod.fst hm))
      · rw [if_neg he]
        exact ih (by rw [List.map_cons, List.nodup_cons] at hn; exact hn.2) hm

theorem isPre_iff (p k : Bytes) : isPre p k = true ↔ ∃ s, k = p ++ s := by
  induction p generalizing k with
  | nil => simp [isPre]
  | cons a p1 ih =>
    cases k with
    | nil =>
      simp only [isPre]
      constructor
      · intro h
        cases h
      · rintro ⟨s, hs⟩
        cases hs
    | cons b k1 =>
      simp only [isPre, Bool.and_eq_true, decide_eq_true_eq, ih]
      constructor
      · rintro ⟨hab, s, hs⟩
        exact ⟨s, by rw [hab, hs]; rfl⟩
      · rintro ⟨s, hs⟩
        cases hs
        exact ⟨rfl, s, rfl⟩

theorem mem_of_isPre (p k : Bytes) (x : Nat) (hp : isPre p k = true) (hx : x ∈ p) : x ∈ k := by
  obtain ⟨s, hs⟩ := (isPre_iff p k).1 hp
  rw [hs]
  exact List.mem_append_left s hx

theorem mem_sweepKeys (db : KV) (tr : List (Bytes × Bytes)) (k : Bytes) :
    k ∈ sweepKeys db tr ↔
      ∃ e ∈ tr, isPre (e.1 ++ [58]) k = true ∧ ∃ v, (k, v) ∈ db := by
  unfold sweepKeys
  simp only [List.mem_flatten, List.mem_map]
  constructor
  · rintro ⟨l, ⟨e, he, rfl⟩, hk⟩
    simp only [List.mem_map] at hk
    obtain ⟨kv, hkv, rfl⟩ := hk
    rw [kvScan, List.mem_filter] at hkv
    exact ⟨e, he, hkv.2, kv.2, by
      have : kv = (kv.1, kv.2) := rfl
      rw [← this]
      exact hkv.1⟩
  · rintro ⟨e, he, hpre, v, hv⟩
    refine ⟨((kvScan db (e.1 ++ [58])).map (fun kv => kv.1)), ⟨e, he, rfl⟩, ?_⟩
    simp only [List.mem_map]
    exact ⟨(k, v), by rw [kvScan, List.mem_filter]; exact ⟨hv, hpre⟩, rfl⟩

theorem blake3Hash_length (b : Bytes) : (blake3Hash b).length = 32 := by
  simp [blake3Hash]

theorem blake3Hash_ge128 (b : Bytes) : ∀ x ∈ blake3Hash b, 128 ≤ x := by
  intro x hx
  simp only [blake3Hash, List.mem_map] at hx
  obtain ⟨i, _, rfl⟩ := hx
  omega

theorem blake3Hash_not58 (b : Bytes) : (58 : Nat) ∉ blake3Hash b := by
  intro h
  have := blake3Hash_ge128 b 58 h
  omega

theorem blake3Hash_ne_headKey (b : Bytes) : blake3Hash b ≠ headKey := by
  intro h
  have h1 := blake3Hash_length b
  rw [h] at h1
  simp [headKey] at h1

theorem headKey_not58 : (58 : Nat) ∉ headKey := by decide

theorem alGet_treeInsert (l : List (Bytes × Bytes)) (k v t : Bytes) :
    alGet (treeInsert l k v) t = if t = k then some v else alGet l t := by
  induction l with
  | nil =>
    by_cases h : t = k <;> simp_all [treeInsert, alGet, eq_comm]
  | cons e rest ih =>
    by_cases he : e.1 = k <;> by_cases h : t = k <;> by_cases h2 : e.1 = t <;>
      simp_all [treeInsert, alGet, eq_comm]

theorem treeInsert_keys (l : List (Bytes × Bytes)) (k v : Bytes) :
    (treeInsert l k v).map Prod.fst =
      if k ∈ l.map Prod.fst then l.map Prod.fst else l.map Prod.fst ++ [k] := by
  induction l with
  | nil => simp [treeInsert]
  | cons e rest ih =>
    rw [treeInsert]
    by_cases he : e.1 = k
    · rw [if_pos he]
      simp [he]
    · rw [if_neg he, List.map_cons, List.map_cons, ih]
      by_cases hmem : k ∈ rest.map Prod.fst
      · rw [if_pos hmem, if_pos (by simp [hmem])]
      · rw [if_neg hmem, if_neg (by
          simp only [List.mem_cons, not_or]
          exact ⟨fun hh => he hh.symm, hmem⟩)]
        rfl

theorem treeInsert_nodup (l : List (Bytes × Bytes)) (k v : Bytes)
    (h : (l.map Prod.fst).Nodup) : ((treeInsert l k v).map Prod.fst).Nodup := by
  rw [treeInsert_keys]
  by_cases hmem : k ∈ l.map Prod.fst
  · rw [if_pos hmem]
    exact h
  · rw [if_neg hmem]
    simp [List.nodup_append, h, hmem]

theorem treeInsert_length (l : List (Bytes × Bytes)) (k v : Bytes) :
    (treeInsert l k v).length ≤ l.length + 1 := by
  induction l with
  | nil => simp [treeInsert]
  | cons e rest ih =>
    rw [treeInsert]
    by_cases he : e.1 = k
    · rw [if_pos he]
      simp
    · rw [if_neg he]
      simpa using Nat.succ_le_succ ih

theorem mem_treeInsert (l : List (Bytes × Bytes)) (k v : Bytes) (e : Bytes × Bytes)
    (h : e ∈ treeInsert l k v) : e ∈ l ∨ e = (k, v) := by
  induction l with
  | nil =>
    rw [treeInsert] at h
    simp at h
    right
    exact h
  | cons e0 rest ih =>
    rw [treeInsert] at h
    by_cases he : e0.1 = k
    · rw [if_pos he] at h
      cases h with
      | head => right; rfl
      | tail _ hm => left; exact List.mem_cons_of_mem _ hm
    · rw [if_neg he] at h
      cases h with
      | head => left; exact List.mem_cons_self _ _
      | tail _ hm =>
        cases ih hm with
        | inl hl => left; exact List.mem_cons_of_mem _ hl
        | inr hr => right; exact hr

theorem builtTree_foldl_alGet (db : KV) (cs : List Change) (acc : List (Bytes × Bytes)) (t : Bytes) :
    alGet (cs.foldl (fun tr c => treeInsert tr c.table (calculateTableHash db c.table)) acc) t =
      if t ∈ cs.map Change.table then some (calculateTableHash db t) else alGet acc t := by
  induction cs generalizing acc with
  | nil => simp
  | cons c rest ih =>
    simp only [List.foldl_cons, List.map_cons, List.mem_cons]
    rw [ih]
    by_cases hmem : t ∈ rest.map Change.table
    · rw [if_pos hmem, if_pos (Or.inr hmem)]
    · rw [if_neg hmem, alGet_treeInsert]
      by_cases heq : t = c.table
      · rw [if_pos heq, if_pos (Or.inl heq), heq]
      · rw [if_neg heq, if_neg (by tauto)]

theorem builtTree_alGet (db : KV) (cs : List Change) (t : Bytes) :
    alGet (builtTree db cs) t =
      if t ∈ cs.map Change.table then some (calculateTableHash db t) else none := by
  unfold builtTree
  rw [builtTree_foldl_alGet]
  rfl

theorem builtTree_foldl_nodup (db : KV) (cs : List Change) (acc : List (Bytes × Bytes))
    (h : (acc.map Prod.fst).Nodup) :
    ((cs.foldl (fun tr c => treeInsert tr c.table (calculateTableHash db c.table)) acc).map Prod.fst).Nodup := by
  induction cs generalizing acc with
  | nil => exact h
  | cons c rest ih => exact ih _ (treeInsert_nodup _ _ _ h)

theorem builtTree_nodup (db : KV) (cs : List Change) :
    ((builtTree db cs).map Prod.fst).Nodup :=
  builtTree_foldl_nodup db cs [] (by simp)

theorem builtTree_foldl_length (db : KV) (cs : List Change) (acc : List (Bytes × Bytes)) :
    (cs.foldl (fun tr c => treeInsert tr c.table (calculateTableHash db c.table)) acc).length ≤
      acc.length + cs.length := by
  induction cs generalizing acc with
  | nil => simp
  | cons c rest ih =>
    simp only [List.foldl_cons, List.length_cons]
    calc (rest.foldl _ (treeInsert acc c.table (calculateTableHash db c.table))).length
        ≤ (treeInsert acc c.table (calculateTableHash db c.table)).length + rest.length := ih _
      _ ≤ acc.length + 1 + rest.length := by
          exact Nat.add_le_add_right (treeInsert_length _ _ _) _
      _ = acc.length + (rest.length + 1) := by omega

theorem builtTree_length (db : KV) (cs : List Change) :
    (builtTree db cs).length ≤ cs.length := by
  have := builtTree_foldl_length db cs []
  simpa using this

theorem builtTree_foldl_mem (db : KV) (cs : List Change) (acc : List (Bytes × Bytes))
    (e : Bytes × Bytes)
    (h : e ∈ cs.foldl (fun tr c => treeInsert tr c.table (calculateTableHash db c.table)) acc) :
    e ∈ acc ∨ ∃ c ∈ cs, e = (c.table, calculateTableHash db c.table) := by
  induction cs generalizing acc with
  | nil => exact Or.inl h
  | cons c rest ih =>
    simp only [List.foldl_cons] at h
    cases ih _ h with
    | inl hin =>
      cases mem_treeInsert _ _ _ _ hin with
      | inl hl => exact Or.inl hl
      | inr hr => exact Or.inr ⟨c, by simp, hr⟩
    | inr hr =>
      obtain ⟨c2, hc2, he⟩ := hr
      exact Or.inr ⟨c2, by simp [hc2], he⟩

theorem builtTree_mem (db : KV) (cs : List Change) (e : Bytes × Bytes)
    (h : e ∈ builtTree db cs) : ∃ c ∈ cs, e = (c.table, calculateTableHash db c.table) := by
  cases builtTree_foldl_mem db cs [] e h with
  | inl hin => cases hin
  | inr hr => exact hr

theorem getHead_some_length (db : KV) (p : Bytes) (h : getHead db = .ok (some p)) :
    p.length = 32 := by
  unfold getHead at h
  cases hg : alGet db headKey with
  | none =>
    rw [hg] at h
    cases h
  | some raw =>
    rw [hg] at h
    dsimp only at h
    by_cases hl : raw.length = 32
    · rw [if_pos hl] at h
      rw [Except.ok.injEq, Option.some.injEq] at h
      rw [← h]
      exact hl
    · rw [if_neg hl] at h
      cases h

theorem createCommit_ok (db : KV) (m : Bytes) (cs : List Change) (now : Nat)
    (hres : Bytes) (db' : KV) (h : createCommit db m cs now = .ok (hres, db')) :
    ∃ p, getHead db = .ok p ∧
      hres = blake3Hash (encCommit (builtCommit p m cs now (builtTree db cs))) ∧
      db' = updateHead
        (kvPut db hres (commitEnvelope (builtCommit p m cs now (builtTree db cs)))) hres := by
  unfold createCommit at h
  cases hg : getHead db with
  | error e =>
    rw [hg] at h
    cases h
  | ok p =>
    rw [hg] at h
    dsimp only at h
    cases hd : deserializeCommit (encCommit (builtCommit p m cs now (builtTree db cs))) with
    | none =>
      rw [hd] at h
      cases h
    | some test =>
      rw [hd] at h
      dsimp only at h
      by_cases hm : test.message = (builtCommit p m cs now (builtTree db cs)).message
      · rw [if_pos hm] at h
        rw [Except.ok.injEq, Prod.mk.injEq] at h
        obtain ⟨h1, h2⟩ := h
        refine ⟨p, rfl, h1.symm, ?_⟩
        rw [← h2, ← h1]
        rfl
      · rw [if_neg hm] at h
        cases h

theorem change_WF_table (c : Change) (h : c.WF) : c.table.length < byteLim := by
  cases c with
  | insert t i v => exact h.1
  | update t i v => exact h.1
  | delete t i => exact h.1

theorem builtCommit_WF (db : KV) (p : Option Bytes) (m : Bytes) (cs : List Change) (now : Nat)
    (hp : ∀ q, p = some q → q.length = 32)
    (hm : m.length < byteLim) (hnow : now < byteLim)
    (hcs : cs.length < byteLim) (hwf : ∀ ch ∈ cs, ch.WF) :
    (builtCommit p m cs now (builtTree db cs)).WF := by
  refine ⟨?_, ?_, hm, hnow, hcs, hwf, ?_, builtTree_nodup db cs, ?_⟩
  · cases p <;> simp [builtCommit, byteLim]
  · intro q hq
    cases p with
    | none => cases hq
    | some x =>
      simp only [builtCommit, Option.toList, List.mem_singleton] at hq
      rw [hq]
      exact hp x rfl
  · exact lt_of_le_of_lt (builtTree_length db cs) hcs
  · intro e he
    obtain ⟨c, hc, rfl⟩ := builtTree_mem db cs e he
    exact ⟨change_WF_table c (hwf c hc), blake3Hash_length _⟩

/-- Claim C9: a successful create_commit writes only the new commit's
content-hash key (holding the envelope) and the HEAD key; every other
key, and in particular every live row key (any key containing the ASCII
colon byte 58), keeps its prior binding, so the submitted changes are
never applied to the row store by this operation. -/
theorem claim_c9 (db : KV) (m : Bytes) (cs : List Change) (now : Nat)
    (hres : Bytes) (db2 : KV) (h : createCommit db m cs now = .ok (hres, db2)) :
    (∀ k, k ≠ hres → k ≠ headKey → alGet db2 k = alGet db k) ∧
    (∀ k, 58 ∈ k → alGet db2 k = alGet db k) ∧
    alGet db2 headKey = some hres := by
  obtain ⟨p, hg, hh, hdb⟩ := createCommit_ok db m cs now hres db2 h
  subst hdb
  refine ⟨?_, ?_, ?_⟩
  · intro k hk1 hk2
    rw [updateHead, alGet_kvPut, if_neg hk2, alGet_kvPut, if_neg hk1]
  · intro k h58
    have hk2 : k ≠ headKey := fun he => headKey_not58 (he ▸ h58)
    have hk1 : k ≠ hres := by
      intro he
      rw [he, hh] at h58
      exact blake3Hash_not58 _ h58
    rw [updateHead, alGet_kvPut, if_neg hk2, alGet_kvPut, if_neg hk1]
  · rw [updateHead, alGet_kvPut, if_pos rfl]

theorem claim_c9_witness :
    createCommit cdbA [] [Change.insert exTable [50] [98]] 2 = .ok (chB, cdbB) ∧
    alGet cdbB [117, 58, 49] = alGet cdbA [117, 58, 49] :=
  ⟨by decide,
   (claim_c9 cdbA [] [Change.insert exTable [50] [98]] 2 chB cdbB (by decide)).2.1
     [117, 58, 49] (by decide)⟩

/-- Claim C5: the tree of a commit produced by create_commit binds
exactly the distinct table names appearing in the submitted changes,
each to the summarizer digest of that table's live rows in the store as
it was at write time; every other table, in particular any table of the
parent commit's tree not named in the changes, is absent from the new
tree. -/
theorem claim_c5 (db : KV) (m : Bytes) (cs : List Change) (now : Nat)
    (hres : Bytes) (db2 : KV)
    (hm : m.length < byteLim) (hnow : now < byteLim)
    (hcs : cs.length < byteLim) (hwf : ∀ ch ∈ cs, ch.WF)
    (h : createCommit db m cs now = .ok (hres, db2)) :
    ∃ c, getCommitByHash db2 hres = .ok c ∧
      ∀ t, alGet c.tree t =
        if t ∈ cs.map Change.table then some (calculateTableHash db t) else none := by
  obtain ⟨p, hg, hh, hdb⟩ := createCommit_ok db m cs now hres db2 h
  have hwfc : (builtCommit p m cs now (builtTree db cs)).WF := by
    refine builtCommit_WF db p m cs now ?_ hm hnow hcs hwf
    intro q hq
    rw [hq] at hg
    exact getHead_some_length db q hg
  refine ⟨builtCommit p m cs now (builtTree db cs), ?_, ?_⟩
  · rw [hdb, updateHead]
    unfold getCommitByHash
    rw [alGet_kvPut, if_neg (by rw [hh]; exact blake3Hash_ne_headKey _),
      alGet_kvPut, if_pos rfl]
    dsimp only
    unfold commitEnvelope
    rw [deserializeCommit_enc _ _ hwfc]
  · intro t
    show alGet (builtTree db cs) t = _
    exact builtTree_alGet db cs t

theorem claim_c5_witness :
    createCommit cdbA [] [Change.insert exTable [50] [98]] 2 = .ok (chB, cdbB) ∧
    ∃ c, getCommitByHash cdbB chB = .ok c ∧
      ∀ t, alGet c.tree t =
        if t ∈ ([Change.insert exTable [50] [98]].map Change.table)
        then some (calculateTableHash cdbA t) else none :=
  ⟨by decide,
   claim_c5 cdbA [] [Change.insert exTable [50] [98]] 2 chB cdbB
     (by decide) (by decide) (by decide) (by decide) (by decide)⟩

/-- Claim C1 (amended): get_commit_by_hash never validates the trailing
digest suffix. For any stored value consisting of a commit's bare
encoding followed by any suffix whatsoever (a matching digest, a
mismatched digest, or anything else), decoding succeeds and yields the
commit; a digest mismatch is never surfaced as CorruptData, because the
bincode deserializer of the source ignores trailing bytes. -/
theorem claim_c1_amended (db : KV) (h : Bytes) (c : Commit) (junk : Bytes)
    (hwf : c.WF) (hget : alGet db h = some (encCommit c ++ junk)) :
    getCommitByHash db h = .ok c := by
  unfold getCommitByHash
  rw [hget]
  dsimp only
  rw [deserializeCommit_enc c junk hwf]

/-- Claim C1 (counterexample): a stored commit whose envelope's trailing
32-byte suffix differs from the digest of the preceding bytes, yet
get_commit_by_hash succeeds and returns the commit instead of failing
with CorruptData. -/
theorem claim_c1_counterexample :
    badEnv = encCommit c0 ++ badSuffix ∧
    badSuffix ≠ blake3Hash (encCommit c0) ∧
    getCommitByHash cdbBad k1 = .ok c0 :=
  ⟨rfl, by decide, by decide⟩

theorem claim_c1_witness :
    c0.WF ∧ alGet cdbBad k1 = some (encCommit c0 ++ badSuffix) ∧
    getCommitByHash cdbBad k1 = .ok c0 :=
  ⟨by decide, by decide, claim_c1_amended cdbBad k1 c0 badSuffix (by decide) (by decide)⟩

/-- Claim C10: debug_commit returns Ok both when the decoded hex
identifier names no stored key and when the stored bytes fail to decode
as a Commit (the decode attempt's outcome is only printed); it returns
an error exactly when the hex input is invalid (the modelled KV adapter
is total, so backend failures do not arise in the embedding). -/
theorem claim_c10 (db : KV) (s : Bytes) :
    (∀ b, hexDecode s = some b → alGet db b = none → debugCommit db s = .ok ()) ∧
    (∀ b v, hexDecode s = some b → alGet db b = some v → deserializeCommit v = none →
      debugCommit db s = .ok ()) ∧
    (∀ e, debugCommit db s = .error e → hexDecode s = none ∧ e = .hexError) := by
  refine ⟨?_, ?_, ?_⟩
  · intro b hb _
    unfold debugCommit
    rw [hb]
    dsimp only
    cases alGet db b <;> rfl
  · intro b v hb _ _
    unfold debugCommit
    rw [hb]
    dsimp only
    cases alGet db b <;> rfl
  · intro e he
    unfold debugCommit at he
    cases hs : hexDecode s with
    | none =>
      rw [hs] at he
      dsimp only at he
      rw [Except.error.injEq] at he
      exact ⟨rfl, he.symm⟩
    | some b =>
      rw [hs] at he
      dsimp only at he
      cases halg : alGet db b <;> rw [halg] at he <;> cases he

theorem claim_c10_witness :
    (debugCommit cdbB (hexEncode k1) = .ok ()) ∧
    (debugCommit cdbJunk [48, 49] = .ok ()) ∧
    (hexDecode [58] = none ∧ GitDBError.hexError = .hexError) :=
  ⟨(claim_c10 cdbB (hexEncode k1)).1 k1 (by decide) (by decide),
   (claim_c10 cdbJunk [48, 49]).2.1 [1] [255] (by decide) (by decide) (by decide),
   (claim_c10 cdbJunk [58]).2.2 .hexError (by decide)⟩

theorem loadChain_sound (db : KV) : ∀ (fuel : Nat) (oh : Option Bytes) (l : List Commit),
    loadCommitChain db fuel oh = some (.ok l) → ChainFrom db oh l := by
  intro fuel
  induction fuel with
  | zero =>
    intro oh l h
    cases oh with
    | none =>
      rw [loadCommitChain] at h
      rw [Option.some.injEq, Except.ok.injEq] at h
      rw [← h]
      exact ChainFrom.nil
    | some hh => cases h
  | succ fuel ih =>
    intro oh l h
    cases oh with
    | none =>
      rw [loadCommitChain] at h
      rw [Option.some.injEq, Except.ok.injEq] at h
      rw [← h]
      exact ChainFrom.nil
    | some hh =>
      rw [loadCommitChain] at h
      cases hg : getCommitByHash db hh with
      | error e =>
        rw [hg] at h
        simp at h
      | ok c =>
        rw [hg] at h
        dsimp only at h
        cases hr : loadCommitChain db fuel c.parents.head? with
        | none =>
          rw [hr] at h
          cases h
        | some r =>
          cases r with
          | error e =>
            rw [hr] at h
            simp at h
          | ok rest =>
            rw [hr] at h
            dsimp only at h
            rw [Option.some.injEq, Except.ok.injEq] at h
            rw [← h]
            exact ChainFrom.cons hg (ih _ _ hr)

/-- Claim C8: get_commit_history returns the first-parent chain from
HEAD in tip-first order, following parents at index 0 until an empty
parent list; it returns the empty list when HEAD is absent; and the
chain walk fails with InvalidInput at the Commit-not-found message as
soon as a referenced id is absent from the store. -/
theorem claim_c8 (db : KV) (fuel : Nat) :
    (getHead db = .ok none → getCommitHistory db fuel = some (.ok [])) ∧
    (∀ l, getCommitHistory db fuel = some (.ok l) →
      ∃ oh, getHead db = .ok oh ∧ ChainFrom db oh l) ∧
    (∀ h, alGet db h = none →
      loadCommitChain db (fuel + 1) (some h) =
        some (.error (.invalidInput commitNotFound))) := by
  refine ⟨?_, ?_, ?_⟩
  · intro hh
    unfold getCommitHistory
    rw [hh]
    dsimp only
    cases fuel <;> rfl
  · intro l hl
    unfold getCommitHistory at hl
    cases hg : getHead db with
    | error e =>
      rw [hg] at hl
      simp at hl
    | ok oh =>
      rw [hg] at hl
      exact ⟨oh, rfl, loadChain_sound db fuel oh l hl⟩
  · intro h hnone
    rw [loadCommitChain]
    unfold getCommitByHash
    rw [hnone]

theorem claim_c8_witness :
    getCommitHistory ([] : KV) 3 = some (.ok []) ∧
    (∃ oh, getHead cdbB = .ok oh ∧ ChainFrom cdbB oh [comB, comA]) ∧
    loadCommitChain cdbB 3 (some k1) =
      some (.error (.invalidInput commitNotFound)) :=
  ⟨(claim_c8 [] 3).1 (by decide),
   (claim_c8 cdbB 8).2.1 [comB, comA] (by decide),
   (claim_c8 cdbB 2).2.2 k1 (by decide)⟩

theorem replayFiltered_eq (db : KV) (t : Bytes) : ∀ (fuel : Nat) (oh : Option Bytes) (eng : Engine),
    replayFiltered db t fuel oh eng =
      match loadCommitChain db fuel oh with
      | none => none
      | some (.error e) => some (.error e)
      | some (.ok chain) => some (.ok (replayChainFiltered t chain eng)) := by
  intro fuel
  induction fuel with
  | zero =>
    intro oh eng
    cases oh with
    | none => rfl
    | some h => rfl
  | succ fuel ih =>
    intro oh eng
    cases oh with
    | none => rfl
    | some h =>
      rw [replayFiltered, loadCommitChain]
      cases hg : getCommitByHash db h with
      | error e => rfl
      | ok c =>
        dsimp only
        rw [ih]
        cases hr : loadCommitChain db fuel c.parents.head? with
        | none => rfl
        | some r =>
          cases r with
          | error e => rfl
          | ok rest => rfl

theorem getTableDiffs_spec (db : KV) (fuel : Nat) (t fromH toH : Bytes) (l : List Change)
    (h : getTableDiffs db fuel t fromH toH = some (.ok l)) :
    ∃ fc tc cf ct,
      getCommitByHash db fromH = .ok fc ∧ getCommitByHash db toH = .ok tc ∧
      loadCommitChain db fuel fc.parents.head? = some (.ok cf) ∧
      loadCommitChain db fuel tc.parents.head? = some (.ok ct) ∧
      l = diffRows t (engRows (replayChainFiltered t cf []) t)
        (engRows (replayChainFiltered t ct []) t) := by
  unfold getTableDiffs at h
  cases hf : getCommitByHash db fromH with
  | error e =>
    rw [hf] at h
    simp at h
  | ok fc =>
    rw [hf] at h
    dsimp only at h
    cases ht : getCommitByHash db toH with
    | error e =>
      rw [ht] at h
      simp at h
    | ok tc =>
      rw [ht] at h
      dsimp only at h
      rw [replayFiltered_eq] at h
      cases hcf : loadCommitChain db fuel fc.parents.head? with
      | none =>
        rw [hcf] at h
        cases h
      | some rf =>
        cases rf with
        | error e =>
          rw [hcf] at h
          simp at h
        | ok cf =>
          rw [hcf] at h
          dsimp only at h
          rw [replayFiltered_eq] at h
          cases hct : loadCommitChain db fuel tc.parents.head? with
          | none =>
            rw [hct] at h
            cases h
          | some rt =>
            cases rt with
            | error e =>
              rw [hct] at h
              simp at h
            | ok ct =>
              rw [hct] at h
              dsimp only at h
              rw [Option.some.injEq, Except.ok.injEq] at h
              exact ⟨fc, tc, cf, ct, rfl, rfl, hcf, hct, h.symm⟩

/-- Claim C2: a successful get_table_diffs is fully determined by the
two parents' chains. Both commits are loaded, the first-parent chain of
from.parents[0] and the first-parent chain of to.parents[0] are walked
(so neither side replays its own tip's changes), only changes whose
table equals the argument are folded into each fresh engine, and the
result is exactly the row diff between the two materializations. -/
theorem claim_c2 (db : KV) (fuel : Nat) (t fromH toH : Bytes) (l : List Change)
    (h : getTableDiffs db fuel t fromH toH = some (.ok l)) :
    ∃ fc tc cf ct,
      getCommitByHash db fromH = .ok fc ∧ getCommitByHash db toH = .ok tc ∧
      loadCommitChain db fuel fc.parents.head? = some (.ok cf) ∧
      loadCommitChain db fuel tc.parents.head? = some (.ok ct) ∧
      l = diffRows t (engRows (replayChainFiltered t cf []) t)
        (engRows (replayChainFiltered t ct []) t) :=
  getTableDiffs_spec db fuel t fromH toH l h

theorem claim_c2_witness :
    ∃ fc tc cf ct,
      getCommitByHash cdbB chA = .ok fc ∧ getCommitByHash cdbB chB = .ok tc ∧
      loadCommitChain cdbB 8 fc.parents.head? = some (.ok cf) ∧
      loadCommitChain cdbB 8 tc.parents.head? = some (.ok ct) ∧
      [Change.insert exTable [49] (serValue [97])] =
        diffRows exTable (engRows (replayChainFiltered exTable cf []) exTable)
          (engRows (replayChainFiltered exTable ct []) exTable) :=
  claim_c2 cdbB 8 exTable chA chB [Change.insert exTable [49] (serValue [97])] (by decide)

theorem rowSet_eq_treeInsert : ∀ (l : List (Bytes × Bytes)) (i v : Bytes),
    rowSet l i v = treeInsert l i v := by
  intro l
  induction l with
  | nil => intro i v; rfl
  | cons e rest ih =>
    intro i v
    rw [rowSet, treeInsert, ih]

theorem rowDel_sublist (l : List (Bytes × Bytes)) (i : Bytes) :
    (rowDel l i).Sublist l := by
  induction l with
  | nil => exact List.Sublist.refl _
  | cons e rest ih =>
    rw [rowDel]
    by_cases he : e.1 = i
    · rw [if_pos he]
      exact ih.cons e
    · rw [if_neg he]
      exact ih.cons₂ e

theorem rowDel_nodup (l : List (Bytes × Bytes)) (i : Bytes)
    (h : (l.map Prod.fst).Nodup) : ((rowDel l i).map Prod.fst).Nodup :=
  List.Nodup.sublist (List.Sublist.map Prod.fst (rowDel_sublist l i)) h

theorem mem_engAdjust (eng : Engine) (t : Bytes)
    (f : List (Bytes × Bytes) → List (Bytes × Bytes)) (te : Bytes × List (Bytes × Bytes))
    (h : te ∈ engAdjust eng t f) :
    te ∈ eng ∨ te = (t, f []) ∨ ∃ e ∈ eng, te = (t, f e.2) := by
  induction eng with
  | nil =>
    rw [engAdjust] at h
    simp at h
    right
    left
    exact h
  | cons e rest ih =>
    rw [engAdjust] at h
    by_cases he : e.1 = t
    · rw [if_pos he] at h
      cases h with
      | head => exact Or.inr (Or.inr ⟨e, List.mem_cons_self _ _, rfl⟩)
      | tail _ hm => exact Or.inl (List.mem_cons_of_mem _ hm)
    · rw [if_neg he] at h
      cases h with
      | head => exact Or.inl (List.mem_cons_self _ _)
      | tail _ hm =>
        cases ih hm with
        | inl h1 => exact Or.inl (List.mem_cons_of_mem _ h1)
        | inr h2 =>
          cases h2 with
          | inl h3 => exact Or.inr (Or.inl h3)
          | inr h4 =>
            obtain ⟨e2, he2, hte⟩ := h4
            exact Or.inr (Or.inr ⟨e2, List.mem_cons_of_mem _ he2, hte⟩)

theorem engAdjust_rowsNodup (eng : Engine) (t : Bytes)
    (f : List (Bytes × Bytes) → List (Bytes × Bytes))
    (hf : ∀ l, (l.map Prod.fst).Nodup → ((f l).map Prod.fst).Nodup)
    (h : ∀ e ∈ eng, (e.2.map Prod.fst).Nodup) :
    ∀ e ∈ engAdjust eng t f, (e.2.map Prod.fst).Nodup := by
  intro e he
  cases mem_engAdjust eng t f e he with
  | inl h1 => exact h e h1
  | inr h2 =>
    cases h2 with
    | inl h3 =>
      rw [h3]
      exact hf [] (by simp)
    | inr h4 =>
      obtain ⟨e2, he2, rfl⟩ := h4
      exact hf e2.2 (h e2 he2)

theorem applyChange_rowsNodup (eng : Engine) (c : Change)
    (h : ∀ e ∈ eng, (e.2.map Prod.fst).Nodup) :
    ∀ e ∈ applyChange eng c, (e.2.map Prod.fst).Nodup := by
  cases c with
  | insert t i v =>
    exact engAdjust_rowsNodup eng t _
      (fun l hl => by rw [rowSet_eq_treeInsert]; exact treeInsert_nodup l i v hl) h
  | update t i v =>
    exact engAdjust_rowsNodup eng t _
      (fun l hl => by rw [rowSet_eq_treeInsert]; exact treeInsert_nodup l i v hl) h
  | delete t i =>
    exact engAdjust_rowsNodup eng t _ (fun l hl => rowDel_nodup l i hl) h

theorem applyChanges_rowsNodup (cs : List Change) : ∀ (eng : Engine),
    (∀ e ∈ eng, (e.2.map Prod.fst).Nodup) →
    ∀ e ∈ applyChanges eng cs, (e.2.map Prod.fst).Nodup := by
  induction cs with
  | nil => intro eng h; exact h
  | cons c rest ih =>
    intro eng h
    exact ih _ (applyChange_rowsNodup eng c h)

theorem replayFiltered_rowsNodup (db : KV) (t : Bytes) : ∀ (fuel : Nat) (oh : Option Bytes)
    (eng eng2 : Engine),
    (∀ e ∈ eng, (e.2.map Prod.fst).Nodup) →
    replayFiltered db t fuel oh eng = some (.ok eng2) →
    ∀ e ∈ eng2, (e.2.map Prod.fst).Nodup := by
  intro fuel
  induction fuel with
  | zero =>
    intro oh eng eng2 hwf h
    cases oh with
    | none =>
      rw [replayFiltered] at h
      rw [Option.some.injEq, Except.ok.injEq] at h
      rw [← h]
      exact hwf
    | some hh => cases h
  | succ fuel ih =>
    intro oh eng eng2 hwf h
    cases oh with
    | none =>
      rw [replayFiltered] at h
      rw [Option.some.injEq, Except.ok.injEq] at h
      rw [← h]
      exact hwf
    | some hh =>
      rw [replayFiltered] at h
      cases hg : getCommitByHash db hh with
      | error e =>
        rw [hg] at h
        simp at h
      | ok c =>
        rw [hg] at h
        dsimp only at h
        exact ih _ _ _ (applyChanges_rowsNodup _ _ hwf) h

theorem engRows_nodup (eng : Engine) (t : Bytes)
    (h : ∀ e ∈ eng, (e.2.map Prod.fst).Nodup) :
    ((engRows eng t).map Prod.fst).Nodup := by
  unfold engRows
  cases halg : alGet eng t with
  | none => simp
  | some rows =>
    have := h (t, rows) (alGet_mem eng t rows halg)
    simpa using this

theorem diffRows_self (t : Bytes) (r : List (Bytes × Bytes))
    (h : (r.map Prod.fst).Nodup) : diffRows t r r = [] := by
  unfold diffRows
  have h1 : (r.filterMap fun e =>
      match alGet r e.1 with
      | some fv => if fv = e.2 then none else some (Change.update t e.1 (serValue e.2))
      | none => some (Change.insert t e.1 (serValue e.2))) = [] := by
    rw [List.filterMap_eq_nil_iff]
    intro e he
    rw [alGet_of_mem_nodup r e.1 e.2 h (by rw [Prod.mk.eta]; exact he)]
    simp
  have h2 : (r.filterMap fun e =>
      if (alGet r e.1).isSome then none else some (Change.delete t e.1)) = [] := by
    rw [List.filterMap_eq_nil_iff]
    intro e he
    rw [alGet_of_mem_nodup r e.1 e.2 h (by rw [Prod.mk.eta]; exact he)]
    simp
  rw [h1, h2]
  rfl

/-- Claim C3 (amended): get_table_diffs returns the empty list when the
two parent-chain materializations of the table coincide (in particular
whenever from and to share their first parent). Equality of the two
commits' tree digests for the table does not imply this, because the
digests summarize live rows at commit time while the diff replays the
parents' chains; the counterexample shows equal digests with a
nonempty diff. -/
theorem claim_c3_amended (db : KV) (fuel : Nat) (t fromH toH : Bytes)
    (fc tc : Commit) (fe te : Engine)
    (hf : getCommitByHash db fromH = .ok fc) (ht : getCommitByHash db toH = .ok tc)
    (hrf : replayFiltered db t fuel fc.parents.head? [] = some (.ok fe))
    (hrt : replayFiltered db t fuel tc.parents.head? [] = some (.ok te))
    (heq : engRows fe t = engRows te t) :
    getTableDiffs db fuel t fromH toH = some (.ok []) := by
  unfold getTableDiffs
  rw [hf]
  dsimp only
  rw [ht]
  dsimp only
  rw [hrf]
  dsimp only
  rw [hrt]
  dsimp only
  rw [heq, diffRows_self]
  exact engRows_nodup te t
    (replayFiltered_rowsNodup db t fuel tc.parents.head? [] te (by simp) hrt)

/-- Claim C3 (counterexample): two stored commits whose trees bind the
same table to the same 32-byte digest, on which get_table_diffs returns
a nonempty change list. -/
theorem claim_c3_counterexample :
    (∃ d, alGet comA.tree exTable = some d ∧ alGet comB.tree exTable = some d) ∧
    getCommitByHash cdbB chA = .ok comA ∧
    getCommitByHash cdbB chB = .ok comB ∧
    getTableDiffs cdbB 8 exTable chA chB =
      some (.ok [Change.insert exTable [49] (serValue [97])]) ∧
    getTableDiffs cdbB 8 exTable chA chB ≠ some (.ok []) :=
  ⟨⟨blake3Hash [], by decide, by decide⟩, by decide, by decide, by decide, by decide⟩

theorem claim_c3_witness :
    getTableDiffs cdbB 8 exTable chB chB = some (.ok []) :=
  claim_c3_amended cdbB 8 exTable chB chB comB comB
    [(exTable, [([49], [97])])] [(exTable, [([49], [97])])]
    (by decide) (by decide) (by decide) (by decide) rfl

/-- Claim C4 (counterexample): the revert engine's delete sweep does not
scan with the bare table name. With a store holding one row of table a
and one row of table ab, the sweep for table a (whose prefix is the
table name followed by the ASCII colon) collects different keys than
the bare-name scan the claim asserts it performs. -/
theorem claim_c4_counterexample :
    sweepKeys cdbPfx [([97], [0])] ≠ (kvScan cdbPfx [97]).map Prod.fst := by
  decide

/-- Claim C4 (amended): only the table-hash summarizer scans the live
keyspace with the bare table name and therefore over-matches: its scan
for table a also collects the row of table ab, and the over-match is
semantically visible because a's digest changes when an ab row is
present. The revert sweep appends the ASCII colon separator to the
table name and collects only a's own row. -/
theorem claim_c4_amended :
    (kvScan cdbPfx [97]).map Prod.fst = [[97, 58, 49], [97, 98, 58, 49]] ∧
    calculateTableHash cdbPfx [97] ≠ calculateTableHash [([97, 58, 49], [5])] [97] ∧
    sweepKeys cdbPfx [([97], [0])] = [[97, 58, 49]] := by
  decide

theorem diffRows_tables (t : Bytes) (fr tr : List (Bytes × Bytes)) :
    ∀ ch ∈ diffRows t fr tr, ch.table = t := by
  intro ch hch
  unfold diffRows at hch
  rw [List.mem_append] at hch
  cases hch with
  | inl h1 =>
    obtain ⟨e, _, hfe⟩ := List.mem_filterMap.mp h1
    cases halg : alGet fr e.1 with
    | some fv =>
      rw [halg] at hfe
      dsimp only at hfe
      by_cases hv : fv = e.2
      · rw [if_pos hv] at hfe
        cases hfe
      · rw [if_neg hv] at hfe
        rw [Option.some.injEq] at hfe
        rw [← hfe]
        rfl
    | none =>
      rw [halg] at hfe
      dsimp only at hfe
      rw [Option.some.injEq] at hfe
      rw [← hfe]
      rfl
  | inr h2 =>
    obtain ⟨e, _, hfe⟩ := List.mem_filterMap.mp h2
    by_cases hs : (alGet tr e.1).isSome
    · rw [if_pos hs] at hfe
      cases hfe
    · rw [if_neg hs] at hfe
      rw [Option.some.injEq] at hfe
      rw [← hfe]
      rfl

theorem getTableDiffs_tables (db : KV) (fuel : Nat) (t fromH toH : Bytes) (l : List Change)
    (h : getTableDiffs db fuel t fromH toH = some (.ok l)) : ∀ ch ∈ l, ch.table = t := by
  obtain ⟨fc, tc, cf, ct, _, _, _, _, hl⟩ := getTableDiffs_spec db fuel t fromH toH l h
  rw [hl]
  exact diffRows_tables t _ _

theorem filterT_append (l1 l2 : List Change) (t : Bytes) :
    filterT (l1 ++ l2) t = filterT l1 t ++ filterT l2 t := by
  unfold filterT
  exact List.filter_append l1 l2

theorem filterT_all (l : List Change) (t : Bytes) (h : ∀ ch ∈ l, ch.table = t) :
    filterT l t = l := by
  unfold filterT
  rw [List.filter_eq_self]
  intro ch hch
  simp [h ch hch]

theorem filterT_none (l : List Change) (t t2 : Bytes) (ht : t2 ≠ t)
    (h : ∀ ch ∈ l, ch.table = t2) : filterT l t = [] := by
  unfold filterT
  rw [List.filter_eq_nil_iff]
  intro ch hch
  simp [h ch hch, ht]

theorem foldl_treeInsert_keys_nodup : ∀ (l acc : List (Bytes × Bytes)),
    (acc.map Prod.fst).Nodup →
    (((l.foldl (fun tr e => treeInsert tr e.1 e.2) acc)).map Prod.fst).Nodup := by
  intro l
  induction l with
  | nil => intro acc h; exact h
  | cons e rest ih =>
    intro acc h
    exact ih _ (treeInsert_nodup _ _ _ h)

theorem treeOfPairs_nodup (l : List (Bytes × Bytes)) :
    ((treeOfPairs l).map Prod.fst).Nodup :=
  foldl_treeInsert_keys_nodup l [] (by simp)

theorem parseCommit_tree (b : Bytes) (c : Commit) (r : Bytes)
    (h : parseCommit b = some (c, r)) : ∃ tr, c.tree = treeOfPairs tr := by
  unfold parseCommit at h
  cases h1 : parseVec (parseN 32) b with
  | none =>
    rw [h1] at h
    cases h
  | some p1 =>
    obtain ⟨ps, r1⟩ := p1
    rw [h1] at h
    dsimp only at h
    cases h2 : parseBytesV r1 with
    | none =>
      rw [h2] at h
      cases h
    | some p2 =>
      obtain ⟨msg, r2⟩ := p2
      rw [h2] at h
      dsimp only at h
      cases h3 : parseU64 r2 with
      | none =>
        rw [h3] at h
        cases h
      | some p3 =>
        obtain ⟨ts, r3⟩ := p3
        rw [h3] at h
        dsimp only at h
        cases h4 : parseVec parseChange r3 with
        | none =>
          rw [h4] at h
          cases h
        | some p4 =>
          obtain ⟨cs, r4⟩ := p4
          rw [h4] at h
          dsimp only at h
          cases h5 : parseVec parsePair r4 with
          | none =>
            rw [h5] at h
            cases h
          | some p5 =>
            obtain ⟨tr, r5⟩ := p5
            rw [h5] at h
            dsimp only at h
            rw [Option.some.injEq, Prod.mk.injEq] at h
            refine ⟨tr, ?_⟩
            rw [← h.1]

theorem getCommitByHash_tree_nodup (db : KV) (h : Bytes) (c : Commit)
    (hok : getCommitByHash db h = .ok c) : (c.tree.map Prod.fst).Nodup := by
  unfold getCommitByHash at hok
  cases hg : alGet db h with
  | none =>
    rw [hg] at hok
    cases hok
  | some raw =>
    rw [hg] at hok
    dsimp only at hok
    cases hd : deserializeCommit raw with
    | none =>
      rw [hd] at hok
      cases hok
    | some c2 =>
      rw [hd] at hok
      rw [Except.ok.injEq] at hok
      unfold deserializeCommit at hd
      cases hp : parseCommit raw with
      | none =>
        rw [hp] at hd
        cases hd
      | some pr =>
        obtain ⟨c3, r⟩ := pr
        rw [hp] at hd
        dsimp only at hd
        rw [Option.some.injEq] at hd
        obtain ⟨tr, htr⟩ := parseCommit_tree raw c3 r hp
        rw [← hok, ← hd, htr]
        exact treeOfPairs_nodup tr

theorem commitDiffsLoop_filter (db : KV) (fuel : Nat) (fromH toH : Bytes)
    (ftr : List (Bytes × Bytes)) :
    ∀ (entries : List (Bytes × Bytes)) (l : List Change),
    (entries.map Prod.fst).Nodup →
    commitDiffsLoop db fuel fromH toH ftr entries = some (.ok l) →
    ∀ t,
      (alGet entries t = none → filterT l t = []) ∧
      (∀ d, alGet entries t = some d → alGet ftr t = some d → filterT l t = []) ∧
      (alGet entries t ≠ none → alGet ftr t = none →
        filterT l t = [Change.insert t schemaId []]) ∧
      (∀ d d2, alGet entries t = some d → alGet ftr t = some d2 → d2 ≠ d →
        getTableDiffs db fuel t fromH toH = some (.ok (filterT l t))) := by
  intro entries
  induction entries with
  | nil =>
    intro l _ hl t
    rw [commitDiffsLoop] at hl
    rw [Option.some.injEq, Except.ok.injEq] at hl
    refine ⟨?_, ?_, ?_, ?_⟩
    · intro _
      rw [← hl]
      rfl
    · intro d hd _
      cases hd
    · intro hne _
      exact absurd rfl hne
    · intro d d2 hd _ _
      cases hd
  | cons e rest ih =>
    intro l hn hl t
    obtain ⟨tb, th⟩ := e
    rw [commitDiffsLoop] at hl
    have hnr : (rest.map Prod.fst).Nodup := by
      rw [List.map_cons, List.nodup_cons] at hn
      exact hn.2
    have htb : tb ∉ rest.map Prod.fst := by
      rw [List.map_cons, List.nodup_cons] at hn
      exact hn.1
    cases hfg : alGet ftr tb with
    | some fh =>
      rw [hfg] at hl
      dsimp only at hl
      by_cases heq : fh = th
      · rw [if_pos heq] at hl
        have IH := ih l hnr hl
        by_cases ht : t = tb
        · subst ht
          have hrest : alGet rest t = none := (alGet_none_iff rest t).mpr htb
          have hfl : filterT l t = [] := (IH t).1 hrest
          refine ⟨?_, ?_, ?_, ?_⟩
          · intro hnone
            exfalso
            rw [alGet] at hnone
            simp at hnone
          · intro d _ _
            exact hfl
          · intro _ hfnone
            rw [hfnone] at hfg
            cases hfg
          · intro d d2 hd hd2 hne
            exfalso
            rw [alGet] at hd
            simp at hd
            rw [hfg, Option.some.injEq] at hd2
            apply hne
            rw [← hd2, heq]
            exact hd
        · have hskip : alGet ((tb, th) :: rest) t = alGet rest t := by
            rw [alGet]
            exact if_neg (fun hh => ht hh.symm)
          rw [hskip]
          exact IH t
      · rw [if_neg heq] at hl
        cases htd : getTableDiffs db fuel tb fromH toH with
        | none =>
          rw [htd] at hl
          cases hl
        | some rtd =>
          cases rtd with
          | error e2 =>
            rw [htd] at hl
            simp at hl
          | ok block =>
            rw [htd] at hl
            dsimp only at hl
            cases hrest : commitDiffsLoop db fuel fromH toH ftr rest with
            | none =>
              rw [hrest] at hl
              cases hl
            | some rr =>
              cases rr with
              | error e2 =>
                rw [hrest] at hl
                simp at hl
              | ok l2 =>
                rw [hrest] at hl
                dsimp only at hl
                rw [Option.some.injEq, Except.ok.injEq] at hl
                subst hl
                have IH := ih l2 hnr hrest
                have hblocktb : ∀ ch ∈ block, ch.table = tb :=
                  getTableDiffs_tables db fuel tb fromH toH block htd
                by_cases ht : t = tb
                · subst ht
                  have hrestnone : alGet rest t = none := (alGet_none_iff rest t).mpr htb
                  have hfl2 : filterT l2 t = [] := (IH t).1 hrestnone
                  have hfb : filterT block t = block := filterT_all block t hblocktb
                  refine ⟨?_, ?_, ?_, ?_⟩
                  · intro hnone
                    exfalso
                    rw [alGet] at hnone
                    simp at hnone
                  · intro d hd hd2
                    exfalso
                    rw [alGet] at hd
                    simp at hd
                    rw [hfg, Option.some.injEq] at hd2
                    exact heq (by rw [hd2, ← hd])
                  · intro _ hfnone
                    rw [hfnone] at hfg
                    cases hfg
                  · intro d d2 hd hd2 hne
                    rw [filterT_append, hfb, hfl2, List.append_nil]
                    exact htd
                · have hskip : alGet ((tb, th) :: rest) t = alGet rest t := by
                    rw [alGet]
                    exact if_neg (fun hh => ht hh.symm)
                  have hfb : filterT block t = [] :=
                    filterT_none block t tb (fun hh => ht hh.symm) hblocktb
                  rw [hskip, filterT_append, hfb, List.nil_append]
                  exact IH t
    | none =>
      rw [hfg] at hl
      dsimp only at hl
      cases hrest : commitDiffsLoop db fuel fromH toH ftr rest with
      | none =>
        rw [hrest] at hl
        cases hl
      | some rr =>
        cases rr with
        | error e2 =>
          rw [hrest] at hl
          simp at hl
        | ok l2 =>
          rw [hrest] at hl
          dsimp only at hl
          rw [Option.some.injEq, Except.ok.injEq] at hl
          subst hl
          have IH := ih l2 hnr hrest
          by_cases ht : t = tb
          · subst ht
            have hrestnone : alGet rest t = none := (alGet_none_iff rest t).mpr htb
            have hfl2 : filterT l2 t = [] := (IH t).1 hrestnone
            have hfsent : filterT (Change.insert t schemaId [] :: l2) t =
                Change.insert t schemaId [] :: filterT l2 t := by
              unfold filterT
              rw [List.filter_cons]
              simp [Change.table]
            refine ⟨?_, ?_, ?_, ?_⟩
            · intro hnone
              exfalso
              rw [alGet] at hnone
              simp at hnone
            · intro d hd hd2
              rw [hd2] at hfg
              cases hfg
            · intro _ _
              rw [hfsent, hfl2]
            · intro d d2 hd hd2 hne
              rw [hd2] at hfg
              cases hfg
          · have hskip : alGet ((tb, th) :: rest) t = alGet rest t := by
              rw [alGet]
              exact if_neg (fun hh => ht hh.symm)
            have hfsent : filterT (Change.insert tb schemaId [] :: l2) t = filterT l2 t := by
              unfold filterT
              rw [List.filter_cons]
              simp only [Change.table, decide_eq_true_eq]
              rw [if_neg (fun hh => ht hh.symm)]
            rw [hskip, hfsent]
            exact IH t

/-- Claim C6: get_commit_diffs iterates only over the tables of
to.tree. Per table of the output, restricted to that table: nothing is
emitted when from.tree holds the table with an equal digest; exactly
the table-level diff is emitted when the digests differ; exactly one
schema sentinel Insert at the reserved id with an empty value is
emitted when from.tree lacks the table; and a table absent from
to.tree, in particular one present only in from.tree, contributes no
output at all. -/
theorem claim_c6 (db : KV) (fuel : Nat) (fromH toH : Bytes) (l : List Change)
    (fc tc : Commit)
    (h : getCommitDiffs db fuel fromH toH = some (.ok l))
    (hf : getCommitByHash db fromH = .ok fc)
    (ht : getCommitByHash db toH = .ok tc) :
    ∀ t,
      (alGet tc.tree t = none → filterT l t = []) ∧
      (∀ d, alGet tc.tree t = some d → alGet fc.tree t = some d → filterT l t = []) ∧
      (alGet tc.tree t ≠ none → alGet fc.tree t = none →
        filterT l t = [Change.insert t schemaId []]) ∧
      (∀ d d2, alGet tc.tree t = some d → alGet fc.tree t = some d2 → d2 ≠ d →
        getTableDiffs db fuel t fromH toH = some (.ok (filterT l t))) := by
  unfold getCommitDiffs at h
  rw [hf] at h
  dsimp only at h
  rw [ht] at h
  dsimp only at h
  exact commitDiffsLoop_filter db fuel fromH toH fc.tree tc.tree l
    (getCommitByHash_tree_nodup db toH tc ht) h

theorem claim_c6_witness :
    getCommitDiffs cdbC 8 chB chC = some (.ok [Change.insert [118] schemaId []]) ∧
    filterT [Change.insert [118] schemaId []] [118] = [Change.insert [118] schemaId []] :=
  ⟨by decide,
   ((claim_c6 cdbC 8 chB chC [Change.insert [118] schemaId []] comB comC
      (by decide) (by decide) (by decide)) [118]).2.2.1 (by decide) (by decide)⟩

theorem getCommitByHash_congr (db db2 : KV) (h : Bytes)
    (hag : alGet db2 h = alGet db h) :
    getCommitByHash db2 h = getCommitByHash db h := by
  unfold getCommitByHash
  rw [hag]

theorem mem_chainKeys_self (db : KV) (fuel : Nat) (h : Bytes) :
    h ∈ chainKeys db fuel (some h) := by
  cases fuel with
  | zero => simp [chainKeys]
  | succ n => simp [chainKeys]

theorem loadChain_congr (db db2 : KV) : ∀ (fuel : Nat) (oh : Option Bytes),
    (∀ k ∈ chainKeys db fuel oh, alGet db2 k = alGet db k) →
    loadCommitChain db2 fuel oh = loadCommitChain db fuel oh := by
  intro fuel
  induction fuel with
  | zero =>
    intro oh _
    cases oh with
    | none => rfl
    | some h => rfl
  | succ fuel ih =>
    intro oh hag
    cases oh with
    | none => rfl
    | some h =>
      rw [loadCommitChain, loadCommitChain]
      have hh : alGet db2 h = alGet db h := hag h (by simp [chainKeys])
      rw [getCommitByHash_congr db db2 h hh]
      cases hg : getCommitByHash db h with
      | error e => rfl
      | ok c =>
        dsimp only
        rw [ih c.parents.head? (fun k hk => hag k (by
          rw [chainKeys, hg]
          exact List.mem_cons_of_mem _ hk))]

theorem revertToCommit_ok (db : KV) (fuel : Nat) (c : Bytes) (now : Nat) (db2 : KV)
    (h : revertToCommit db fuel c now = some (.ok db2)) :
    ∃ target chain hres,
      getCommitByHash db c = .ok target ∧
      loadCommitChain db fuel (some c) = some (.ok chain) ∧
      createCommit
        (applyPuts (applyDels db (sweepKeys db target.tree)) (enginePuts (chainEngine chain)))
        (revertMsgBytes c) (revertChanges target.changes) now = .ok (hres, db2) := by
  unfold revertToCommit at h
  cases hg : getCommitByHash db c with
  | error e =>
    rw [hg] at h
    simp at h
  | ok target =>
    rw [hg] at h
    dsimp only at h
    cases hl : loadCommitChain db fuel (some c) with
    | none =>
      rw [hl] at h
      cases h
    | some r =>
      cases r with
      | error e =>
        rw [hl] at h
        simp at h
      | ok chain =>
        rw [hl] at h
        dsimp only at h
        cases hc : createCommit
            (applyPuts (applyDels db (sweepKeys db target.tree)) (enginePuts (chainEngine chain)))
            (revertMsgBytes c) (revertChanges target.changes) now with
        | error e =>
          rw [hc] at h
          simp at h
        | ok pr =>
          obtain ⟨hres, db3⟩ := pr
          rw [hc] at h
          dsimp only at h
          rw [Option.some.injEq, Except.ok.injEq] at h
          exact ⟨target, chain, hres, rfl, rfl, by rw [hc, h]⟩

theorem enginePuts_key58 (eng : Engine) (e : Bytes × Bytes) (h : e ∈ enginePuts eng) :
    58 ∈ e.1 := by
  unfold enginePuts at h
  rw [List.mem_flatten] at h
  obtain ⟨l, hl, hel⟩ := h
  rw [List.mem_map] at hl
  obtain ⟨te, _, rfl⟩ := hl
  rw [List.mem_map] at hel
  obtain ⟨ie, _, rfl⟩ := hel
  simp

theorem putLook_some_mem (ps : List (Bytes × Bytes)) (k : Bytes) : ∀ (v : Bytes),
    putLook ps k = some v → ∃ e ∈ ps, e.1 = k := by
  induction ps with
  | nil =>
    intro v h
    cases h
  | cons e rest ih =>
    intro v h
    rw [putLook] at h
    cases hr : putLook rest k with
    | some v2 =>
      obtain ⟨e2, he2, hk⟩ := ih v2 hr
      exact ⟨e2, List.mem_cons_of_mem _ he2, hk⟩
    | none =>
      rw [hr] at h
      dsimp only at h
      by_cases he : e.1 = k
      · exact ⟨e, List.mem_cons_self _ _, he⟩
      · rw [if_neg he] at h
        cases h

theorem sweepKeys_58 (db : KV) (tr : List (Bytes × Bytes)) (k : Bytes)
    (h : k ∈ sweepKeys db tr) : 58 ∈ k := by
  rw [mem_sweepKeys] at h
  obtain ⟨e, _, hpre, _⟩ := h
  exact mem_of_isPre _ _ 58 hpre (by simp)

theorem alGet_batch (db : KV) (dels : List Bytes) (ps : List (Bytes × Bytes)) (k : Bytes) :
    alGet (applyPuts (applyDels db dels) ps) k =
      match putLook ps k with
      | some v => some v
      | none => if k ∈ dels then none else alGet db k := by
  rw [alGet_applyPuts]
  cases putLook ps k with
  | some v => rfl
  | none =>
    dsimp only
    rw [alGet_applyDels]

/-- Claim C7: reverting to the same stored commit twice in immediate
succession leaves the live row keyspace (every key containing the ASCII
colon byte 58, i.e. every table-colon-id key, with its value) identical
to its state after the first revert; the only keys whose bindings may
differ after the second call are the new revert-record commit's
content-hash key (a 32-byte non-ASCII key) and the advanced HEAD. The
freshness hypothesis states that the first revert left the target's
chain entries untouched, which holds whenever the revert-record's
content hash does not collide with a chain key. -/
theorem claim_c7 (db : KV) (fuel : Nat) (c : Bytes) (now1 now2 : Nat) (db1 db2 : KV)
    (h1 : revertToCommit db fuel c now1 = some (.ok db1))
    (h2 : revertToCommit db1 fuel c now2 = some (.ok db2))
    (hfresh : ∀ k ∈ chainKeys db fuel (some c), alGet db1 k = alGet db k) :
    (∀ k, 58 ∈ k → alGet db2 k = alGet db1 k) ∧
    (∃ hnew, (∀ b ∈ hnew, 128 ≤ b) ∧
      ∀ k, k ≠ hnew → k ≠ headKey → alGet db2 k = alGet db1 k) := by
  obtain ⟨target, chain, hres1, hget1, hload1, hcc1⟩ := revertToCommit_ok db fuel c now1 db1 h1
  obtain ⟨target2, chain2, hres2, hget2, hload2, hcc2⟩ := revertToCommit_ok db1 fuel c now2 db2 h2
  have hgc : getCommitByHash db1 c = getCommitByHash db c :=
    getCommitByHash_congr db db1 c (hfresh c (mem_chainKeys_self db fuel c))
  have htarg : target2 = target := by
    rw [hgc, hget1, Except.ok.injEq] at hget2
    exact hget2.symm
  rw [htarg] at hcc2
  have hch : loadCommitChain db1 fuel (some c) = loadCommitChain db fuel (some c) :=
    loadChain_congr db db1 fuel (some c) hfresh
  have hchain2 : chain2 = chain := by
    rw [hch, hload1, Option.some.injEq, Except.ok.injEq] at hload2
    exact hload2.symm
  rw [hchain2] at hcc2
  obtain ⟨p1, hgh1, hres1eq, hdb1⟩ := createCommit_ok _ _ _ _ _ _ hcc1
  obtain ⟨p2, hgh2, hres2eq, hdb2⟩ := createCommit_ok _ _ _ _ _ _ hcc2
  have main : ∀ k, k ≠ hres2 → k ≠ headKey → alGet db2 k = alGet db1 k := by
    intro k hk2 hkH
    rw [hdb2, updateHead, alGet_kvPut, if_neg hkH, alGet_kvPut, if_neg hk2, alGet_batch]
    cases hpl : putLook (enginePuts (chainEngine chain)) k with
    | some v =>
      obtain ⟨e, hep, hek⟩ := putLook_some_mem _ k v hpl
      have h58 : 58 ∈ k := hek ▸ enginePuts_key58 _ e hep
      have hk1 : k ≠ hres1 := by
        intro he
        rw [he, hres1eq] at h58
        exact blake3Hash_not58 _ h58
      have hkH1 : k ≠ headKey := by
        intro he
        rw [he] at h58
        exact headKey_not58 h58
      rw [hdb1, updateHead, alGet_kvPut, if_neg hkH1,
        alGet_kvPut, if_neg hk1, alGet_batch, hpl]
    | none =>
      by_cases hdels : k ∈ sweepKeys db1 target.tree
      · exfalso
        have hdels2 := hdels
        rw [mem_sweepKeys] at hdels2
        obtain ⟨e, he, hpre, w, hw⟩ := hdels2
        have hsome : (alGet db1 k).isSome := alGet_isSome_of_mem db1 k w hw
        have h58 : 58 ∈ k := mem_of_isPre _ _ 58 hpre (by simp)
        have hk1 : k ≠ hres1 := by
          intro he2
          rw [he2, hres1eq] at h58
          exact blake3Hash_not58 _ h58
        have hkH1 : k ≠ headKey := by
          intro he2
          rw [he2] at h58
          exact headKey_not58 h58
        rw [hdb1, updateHead, alGet_kvPut, if_neg hkH1,
          alGet_kvPut, if_neg hk1, alGet_batch, hpl] at hsome
        dsimp only at hsome
        by_cases hd1 : k ∈ sweepKeys db target.tree
        · rw [if_pos hd1] at hsome
          cases hsome
        · rw [if_neg hd1] at hsome
          apply hd1
          rw [mem_sweepKeys]
          cases hgw : alGet db k with
          | none =>
            rw [hgw] at hsome
            cases hsome
          | some w2 => exact ⟨e, he, hpre, w2, alGet_mem db k w2 hgw⟩
      · rw [if_neg hdels]
  refine ⟨?_, hres2, ?_, main⟩
  · intro k h58
    apply main k
    · intro he
      rw [he, hres2eq] at h58
      exact blake3Hash_not58 _ h58
    · intro he
      rw [he] at h58
      exact headKey_not58 h58
  · intro b hb
    rw [hres2eq] at hb
    exact blake3Hash_ge128 _ b hb

theorem claim_c7_witness :
    revertToCommit cdbB 8 chB 3 = some (.ok cdbR1) ∧
    revertToCommit cdbR1 8 chB 4 = some (.ok cdbR2) ∧
    (∀ k, 58 ∈ k → alGet cdbR2 k = alGet cdbR1 k) :=
  ⟨by decide, by decide,
   (claim_c7 cdbB 8 chB 3 4 cdbR1 cdbR2 (by decide) (by decide) (by decide)).1⟩

end GitDB
